import Mathlib

/-!
Verification development for the Arc Grafana datasource backend
(`pkg/plugin`): a shallow embedding, in Lean 4, of the time-range
splitter, frame merger, chunk scheduler collection phase, macro
expander, SQL heuristics, time-sort routine and the Arrow timestamp
decoders, together with theorems settling the specification claims
about them.

Modelling conventions:
* Go `time.Time` instants and `time.Duration` values are modelled as
  unbounded `Int` nanosecond counts (the Go values are `int64`
  nanoseconds; no claim here exercises `int64` wrap-around).  All
  instants are treated as UTC.
* Go strings are modelled as `List Char`; the SQL and macro texts in
  scope are ASCII, so Go byte indices coincide with character indices.
* Fallible or heap-manipulating Go code is modelled with `Option` and
  explicit state passing.
-/

set_option maxRecDepth 100000

namespace Arc

/-! ## Time model -/

/-- Nanoseconds per second, the scale of Go `time.Duration`. -/
def nsPerSec : Int := 1000000000

/-- `backend.TimeRange`: a pair of instants (nanoseconds since the Unix
epoch). -/
structure TimeRange where
  From : Int
  To : Int
deriving Repr, DecidableEq

/-- Go `t.Unix()`: whole seconds since the epoch.  Go stores a time as
`(sec, nsec)` with `0 ≤ nsec < 10^9`, so `Unix` is the floor division
of the nanosecond count by `10^9`. -/
def unixSec (t : Int) : Int := Int.fdiv t nsPerSec

/-- Go `int64(d.Seconds())`: `d.Seconds()` divides the nanosecond count
by `10^9` in `float64` and the conversion truncates toward zero; for
the magnitudes in scope this is exact truncating division. -/
def durationSeconds (d : Int) : Int := Int.tdiv d nsPerSec

/-! ## `splitTimeRange` (pkg/plugin/datasource.go)

Go source:

```
func splitTimeRange(from, to time.Time, chunkSize time.Duration) []backend.TimeRange {
    chunkSecs := int64(chunkSize.Seconds())
    if chunkSecs <= 0 {
        return []backend.TimeRange{{From: from, To: to}}
    }
    fromEpoch := from.Unix()
    nextBoundary := ((fromEpoch / chunkSecs) + 1) * chunkSecs
    firstEnd := time.Unix(nextBoundary, 0).UTC()
    if !firstEnd.Before(to) {
        return []backend.TimeRange{{From: from, To: to}}
    }
    var chunks []backend.TimeRange
    chunks = append(chunks, backend.TimeRange{From: from, To: firstEnd})
    current := firstEnd
    for {
        end := current.Add(chunkSize)
        if !end.Before(to) {
            break
        }
        chunks = append(chunks, backend.TimeRange{From: current, To: end})
        current = end
    }
    if current.Before(to) {
        chunks = append(chunks, backend.TimeRange{From: current, To: to})
    }
    return chunks
}
```

Go `int64` division truncates toward zero, hence `Int.tdiv` below.
The middle `for` loop is modelled by `splitLoop` with a fuel argument;
`splitFuel` supplies enough fuel for the loop to run to completion
(each iteration advances `current` by `chunkSize > 0`). -/

/-- The middle loop and final partial chunk of `splitTimeRange`:
emits `[current, current+c)` chunks while they end before `t`, then a
final `[current, t)` chunk when `current` is still before `t`. -/
def splitLoop : Nat → Int → Int → Int → List TimeRange
  | 0, _, _, _ => []
  | fuel+1, current, t, c =>
    let e := current + c
    if e < t then ⟨current, e⟩ :: splitLoop fuel e t c
    else if current < t then [⟨current, t⟩] else []

/-- Fuel bound for `splitLoop`: one unit per chunk that fits in the
remaining range, plus one for the final partial chunk. -/
def splitFuel (current t c : Int) : Nat := (t - current).toNat / c.toNat + 1

/-- The smallest epoch-aligned boundary the code starts chunking at:
`((from.Unix() / chunkSecs) + 1) * chunkSecs` seconds, as nanoseconds. -/
def firstAlignedEnd (f c : Int) : Int :=
  ((Int.tdiv (unixSec f) (durationSeconds c)) + 1) * durationSeconds c * nsPerSec

/-- `splitTimeRange` from `pkg/plugin/datasource.go`. -/
def splitTimeRange (f t chunkSize : Int) : List TimeRange :=
  let chunkSecs := durationSeconds chunkSize
  if chunkSecs ≤ 0 then [⟨f, t⟩]
  else
    let firstEnd := firstAlignedEnd f chunkSize
    if ¬ firstEnd < t then [⟨f, t⟩]
    else ⟨f, firstEnd⟩ :: splitLoop (splitFuel firstEnd t chunkSize) firstEnd t chunkSize

/-- A chunk plan is contiguous: each chunk ends where the next begins. -/
def Contiguous (L : List TimeRange) : Prop :=
  L.Chain' fun a b => a.To = b.From

instance : DecidablePred Contiguous := fun L => by
  unfold Contiguous; infer_instance

/-- A chunk plan covers `[f, t)` exactly. -/
def Covers (f t : Int) (L : List TimeRange) : Prop :=
  L.head?.map TimeRange.From = some f ∧ L.getLast?.map TimeRange.To = some t

instance : ∀ f t L, Decidable (Covers f t L) := fun _ _ _ =>
  instDecidableAnd

/-- Every internal boundary (each chunk's `To` except the last) lands on
a whole multiple of `s` seconds from the epoch. -/
def AlignedMod (s : Int) (L : List TimeRange) : Prop :=
  ∀ r ∈ L.dropLast, unixSec r.To % s = 0

instance : ∀ s L, Decidable (AlignedMod s L) := fun s L => by
  unfold AlignedMod; infer_instance

/-- Claim C1 as stated: for every `to > from` and `chunkSize > 0` the plan
is contiguous, covers the range exactly, and every internal boundary is
congruent to 0 modulo the chunk size in seconds. -/
def splitClaimC1 : Prop :=
  ∀ f t c : Int, f < t → 0 < c →
    Contiguous (splitTimeRange f t c) ∧
    Covers f t (splitTimeRange f t c) ∧
    AlignedMod (durationSeconds c) (splitTimeRange f t c)

/-- Claim C2 as stated: chunk size 0 yields the single chunk `[from, to)`,
and so does any range whose duration is shorter than the chunk size. -/
def splitClaimC2 : Prop :=
  (∀ f t : Int, splitTimeRange f t 0 = [⟨f, t⟩]) ∧
  (∀ f t c : Int, 0 < c → t - f < c → splitTimeRange f t c = [⟨f, t⟩])

/-- Core invariants of the split loop, given enough fuel: it produces a
nonempty contiguous list of chunks beginning at `current` and ending at
`t`, all of whose non-final endpoints are `current + (k+1)*c`. -/
theorem splitLoop_spec (t c : Int) (hc : 0 < c) :
    ∀ (fuel : Nat) (current : Int), current < t → t - current ≤ (fuel : Int) * c →
      splitLoop fuel current t c ≠ [] ∧
      (splitLoop fuel current t c).head?.map TimeRange.From = some current ∧
      (splitLoop fuel current t c).getLast?.map TimeRange.To = some t ∧
      Contiguous (splitLoop fuel current t c) ∧
      ∀ r ∈ (splitLoop fuel current t c).dropLast,
        ∃ k : Nat, r.To = current + ((k : Int) + 1) * c := by
  intro fuel
  induction fuel with
  | zero =>
    intro current hlt hfuel
    exfalso
    simp only [Nat.cast_zero, Int.zero_mul] at hfuel
    omega
  | succ fuel ih =>
    intro current hlt hfuel
    simp only [splitLoop]
    by_cases he : current + c < t
    · obtain ⟨hne, hhead, hlast, hchain, hdrop⟩ := ih (current + c) he (by push_cast at hfuel ⊢; linarith)
      rw [if_pos he]
      cases hr : splitLoop fuel (current + c) t c with
      | nil => exact absurd hr hne
      | cons b l =>
        rw [hr] at hhead hlast hchain hdrop
        simp only [List.head?_cons, Option.map_some'] at hhead
        refine ⟨by simp, by simp, ?_, ?_, ?_⟩
        · rw [List.getLast?_cons_cons]; exact hlast
        · rw [Contiguous, List.chain'_cons']
          refine ⟨?_, hchain⟩
          intro y hy
          simp only [List.head?_cons, Option.mem_def, Option.some.injEq] at hy
          subst hy
          simpa using hhead.symm
        · rw [List.dropLast_cons₂]
          intro r hrm
          rcases List.mem_cons.mp hrm with h | h
          · exact ⟨0, by subst h; push_cast; ring⟩
          · obtain ⟨k, hk⟩ := hdrop r h
            exact ⟨k + 1, by rw [hk]; push_cast; ring⟩
    · rw [if_neg he, if_pos hlt]
      refine ⟨by simp, by simp, by simp, ?_, by simp⟩
      rw [Contiguous]
      exact List.chain'_singleton _

/-- Helper: the fuel supplied by `splitTimeRange` is sufficient for the
loop invariant. -/
theorem splitFuel_sufficient {current t c : Int} (hc : 0 < c) (hlt : current < t) :
    t - current ≤ ((splitFuel current t c : Nat) : Int) * c := by
  rw [splitFuel]
  have hm : 0 < c.toNat := by omega
  have hn : ((t - current).toNat : Int) = t - current := Int.toNat_of_nonneg (by omega)
  have hcn : ((c.toNat : Nat) : Int) = c := Int.toNat_of_nonneg (by omega)
  have key : (t - current).toNat < ((t - current).toNat / c.toNat + 1) * c.toNat := by
    have h1 := Nat.div_add_mod (t - current).toNat c.toNat
    have h2 := Nat.mod_lt (t - current).toNat hm
    calc (t - current).toNat
        = c.toNat * ((t - current).toNat / c.toNat) + (t - current).toNat % c.toNat := h1.symm
      _ < c.toNat * ((t - current).toNat / c.toNat) + c.toNat := by omega
      _ = ((t - current).toNat / c.toNat + 1) * c.toNat := by ring
  have : ((t - current).toNat : Int) < (((t - current).toNat / c.toNat + 1 : Nat) : Int) * ((c.toNat : Nat) : Int) := by
    exact_mod_cast Int.ofNat_lt.mpr key
  rw [hn, hcn] at this
  exact le_of_lt this

/-- The three claimed properties hold for any single-chunk plan. -/
theorem single_chunk_ok (f t s : Int) :
    Contiguous [(⟨f, t⟩ : TimeRange)] ∧ Covers f t [(⟨f, t⟩ : TimeRange)] ∧
      AlignedMod s [(⟨f, t⟩ : TimeRange)] := by
  refine ⟨?_, ⟨by simp, by simp⟩, by simp [AlignedMod]⟩
  rw [Contiguous]
  exact List.chain'_singleton _

/-- C1, corrected: the claim as stated is false.  With
`chunkSize = 2.5 s` (a positive duration that is not a whole number of
seconds) over the range `[0.7 s, 20 s)`, the plan contains the internal
boundary `7 s`, and `7` is not congruent to `0` modulo the chunk size
in seconds (`int64(chunkSize.Seconds()) = 2`). -/
theorem splitClaimC1_false : ¬ splitClaimC1 := by
  intro h
  have := (h 700000000 20000000000 2500000000 (by decide) (by decide)).2.2
  revert this
  decide

/-- C1, amended: for every `to > from` and every positive `chunkSize`
that is a whole number of seconds, `splitTimeRange` produces a plan that
is contiguous, covers the input range exactly, and has every internal
boundary congruent to `0` modulo the chunk size in seconds, measured
from the Unix epoch. -/
theorem splitTimeRange_plan_ok (f t c : Int) (hft : f < t) (hc : 0 < c)
    (hw : nsPerSec ∣ c) :
    Contiguous (splitTimeRange f t c) ∧ Covers f t (splitTimeRange f t c) ∧
      AlignedMod (durationSeconds c) (splitTimeRange f t c) := by
  obtain ⟨s, hs⟩ := hw
  have hns : (nsPerSec : Int) ≠ 0 := by decide
  have hcs : durationSeconds c = s := by
    rw [durationSeconds, hs, Int.mul_tdiv_cancel_left _ hns]
  have hspos : 0 < s := by
    by_contra hneg
    push_neg at hneg
    have : c ≤ 0 := by rw [hs]; exact Int.mul_nonpos_of_nonneg_of_nonpos (by decide) hneg
    omega
  rw [splitTimeRange]
  simp only [hcs]
  rw [if_neg (by omega)]
  by_cases hfe : firstAlignedEnd f c < t
  · rw [if_neg (by simpa using hfe)]
    set q : Int := Int.tdiv (unixSec f) (durationSeconds c) with hq
    have hfeval : firstAlignedEnd f c = (q + 1) * s * nsPerSec := by
      rw [firstAlignedEnd, ← hq, hcs]
    obtain ⟨hne, hhead, hlast, hchain, hdrop⟩ :=
      splitLoop_spec t c hc (splitFuel (firstAlignedEnd f c) t c) (firstAlignedEnd f c) hfe
        (splitFuel_sufficient hc hfe)
    cases hr : splitLoop (splitFuel (firstAlignedEnd f c) t c) (firstAlignedEnd f c) t c with
    | nil => exact absurd hr hne
    | cons b l =>
      rw [hr] at hhead hlast hchain hdrop
      simp only [List.head?_cons, Option.map_some'] at hhead
      refine ⟨?_, ⟨by simp, ?_⟩, ?_⟩
      · rw [Contiguous, List.chain'_cons']
        exact ⟨fun y hy => by
          simp only [List.head?_cons, Option.mem_def, Option.some.injEq] at hy
          subst hy; simpa using hhead.symm, hchain⟩
      · rw [List.getLast?_cons_cons]; exact hlast
      · rw [AlignedMod, List.dropLast_cons₂]
        intro r hrm
        rcases List.mem_cons.mp hrm with h | h
        · subst h
          show unixSec (firstAlignedEnd f c) % s = 0
          rw [hfeval, unixSec, Int.mul_fdiv_cancel _ hns, Int.mul_emod_left]
        · obtain ⟨k, hk⟩ := hdrop r h
          show unixSec r.To % s = 0
          have : r.To = ((q + 1) * s + ((k : Int) + 1) * s) * nsPerSec := by
            rw [hk, hfeval, hs]; ring
          rw [this, unixSec, Int.mul_fdiv_cancel _ hns]
          have : (q + 1) * s + ((k : Int) + 1) * s = (q + 1 + ((k : Int) + 1)) * s := by ring
          rw [this, Int.mul_emod_left]
  · rw [if_pos (by simpa using hfe)]
    exact single_chunk_ok f t s

/-- Witness for `splitTimeRange_plan_ok`: the 6-hour-aligned split of
`[10:30, 11:15)` on 1970-01-01 with 1-hour chunks. -/
theorem splitTimeRange_plan_ok_witness :
    ((37800000000000 : Int) < 40500000000000 ∧ (0 : Int) < 3600000000000 ∧
        nsPerSec ∣ (3600000000000 : Int)) ∧
      (Contiguous (splitTimeRange 37800000000000 40500000000000 3600000000000) ∧
        Covers 37800000000000 40500000000000
          (splitTimeRange 37800000000000 40500000000000 3600000000000) ∧
        AlignedMod (durationSeconds 3600000000000)
          (splitTimeRange 37800000000000 40500000000000 3600000000000)) :=
  ⟨⟨by decide, by decide, ⟨3600, by decide⟩⟩,
    splitTimeRange_plan_ok 37800000000000 40500000000000 3600000000000
      (by decide) (by decide) ⟨3600, by decide⟩⟩

/-- C2, corrected: the claim as stated is false.  The range
`[10:30, 11:15)` (on 1970-01-01) lasts 45 minutes, which is shorter
than the 1-hour chunk size, yet `splitTimeRange` crosses the aligned
boundary at 11:00 and returns two chunks, not one. -/
theorem splitClaimC2_false : ¬ splitClaimC2 := by
  intro h
  have := h.2 37800000000000 40500000000000 3600000000000 (by decide) (by decide)
  revert this
  decide

/-- C2, amended: `splitTimeRange` returns the single chunk `[from, to)`
when the chunk size is zero (or, more generally, truncates to a
non-positive number of seconds), and whenever the range does not extend
past the first epoch-aligned boundary after `from` — in particular for
any range that is shorter than the chunk size *and* does not cross such
a boundary. -/
theorem splitTimeRange_single (f t c : Int) :
    splitTimeRange f t 0 = [⟨f, t⟩] ∧
      (durationSeconds c ≤ 0 → splitTimeRange f t c = [⟨f, t⟩]) ∧
      (¬ firstAlignedEnd f c < t → splitTimeRange f t c = [⟨f, t⟩]) := by
  refine ⟨by rw [splitTimeRange]; rfl, ?_, ?_⟩
  · intro hcs
    rw [splitTimeRange, if_pos hcs]
  · intro hfe
    rw [splitTimeRange]
    by_cases hcs : durationSeconds c ≤ 0
    · rw [if_pos hcs]
    · rw [if_neg hcs, if_pos (by simpa using hfe)]

/-- Witness for `splitTimeRange_single`: zero chunk size, a negative
duration, and the 45-minute range `[10:30, 11:00)` that stays inside
one aligned hour. -/
theorem splitTimeRange_single_witness :
    (durationSeconds (-5) ≤ 0 ∧ ¬ firstAlignedEnd 37800000000000 3600000000000 < 39000000000000) ∧
      splitTimeRange 0 1 0 = [⟨0, 1⟩] ∧
      splitTimeRange 0 1 (-5) = [⟨0, 1⟩] ∧
      splitTimeRange 37800000000000 39000000000000 3600000000000 =
        [⟨37800000000000, 39000000000000⟩] :=
  ⟨⟨by decide, by decide⟩, (splitTimeRange_single 0 1 0).1,
    (splitTimeRange_single 0 1 (-5)).2.1 (by decide),
    (splitTimeRange_single 37800000000000 39000000000000 3600000000000).2.2 (by decide)⟩

/-! ## String model

Go strings are modelled as `List Char`.  The SQL and macro texts in
scope are ASCII, so Go byte indices coincide with character indices,
and the ASCII versions of `strings.ToUpper`/`ToLower`/`TrimSpace`
agree with Go's Unicode-aware ones. -/

/-- A Go string. -/
abbrev Str := List Char

/-- Whether `p` is a leading segment of `s`. -/
def leadsB : Str → Str → Bool
  | [], _ => true
  | _ :: _, [] => false
  | p :: ps, c :: cs => p == c && leadsB ps cs

/-- Helper for `firstIdx`: first position at or after `i` where `pat`
begins. -/
def firstIdxAux (pat : Str) : Str → Nat → Option Nat
  | [], i => if leadsB pat [] then some i else none
  | c :: cs, i => if leadsB pat (c :: cs) then some i else firstIdxAux pat cs (i + 1)

/-- Go `strings.Index(s, pat)` (with `none` for Go's `-1`). -/
def firstIdx (s pat : Str) : Option Nat := firstIdxAux pat s 0

/-- Go `strings.Contains(s, pat)`. -/
def containsSub (s pat : Str) : Bool := (firstIdx s pat).isSome

/-- Helper for `lastIdx`. -/
def lastIdxAux (pat : Str) : Str → Nat → Option Nat → Option Nat
  | [], i, acc => if leadsB pat [] then some i else acc
  | c :: cs, i, acc =>
    lastIdxAux pat cs (i + 1) (if leadsB pat (c :: cs) then some i else acc)

/-- Go `strings.LastIndex(s, pat)` (with `none` for Go's `-1`). -/
def lastIdx (s pat : Str) : Option Nat := lastIdxAux pat s 0 none

/-- Go `strings.Replace(s, pat, rep, -1)` (= `strings.ReplaceAll`):
replaces non-overlapping occurrences left to right.  The fuel is an
upper bound on the number of replacements; `replaceAll` supplies
`s.length + 1`, which suffices because each replacement consumes at
least one character of the original string (all patterns used here are
nonempty). -/
def replaceAllFuel (pat rep : Str) : Nat → Str → Str
  | 0, s => s
  | fuel + 1, s =>
    match firstIdx s pat with
    | none => s
    | some i => s.take i ++ rep ++ replaceAllFuel pat rep fuel (s.drop (i + pat.length))

/-- Go `strings.ReplaceAll(s, pat, rep)`. -/
def replaceAll (s pat rep : Str) : Str := replaceAllFuel pat rep (s.length + 1) s

/-- Go `unicode.IsSpace` restricted to ASCII. -/
def isSpaceCh (c : Char) : Bool :=
  c == ' ' || c == '\t' || c == '\n' || c == '\r' || c == Char.ofNat 11 || c == Char.ofNat 12

/-- Go `strings.TrimSpace` (ASCII). -/
def trimSpace (s : Str) : Str :=
  ((s.dropWhile isSpaceCh).reverse.dropWhile isSpaceCh).reverse

/-- Go `strings.TrimRight(s, cutset)`. -/
def trimRightIn (s cutset : Str) : Str :=
  (s.reverse.dropWhile (fun c => cutset.contains c)).reverse

/-- Go `strings.Trim(s, cutset)`. -/
def trimIn (s cutset : Str) : Str :=
  ((s.dropWhile (fun c => cutset.contains c)).reverse.dropWhile (fun c => cutset.contains c)).reverse

/-- ASCII upper-casing of one character. -/
def toUpperCh (c : Char) : Char :=
  if 'a' ≤ c ∧ c ≤ 'z' then Char.ofNat (c.toNat - 32) else c

/-- ASCII lower-casing of one character. -/
def toLowerCh (c : Char) : Char :=
  if 'A' ≤ c ∧ c ≤ 'Z' then Char.ofNat (c.toNat + 32) else c

/-- Go `strings.ToUpper` (ASCII). -/
def toUpperStr (s : Str) : Str := s.map toUpperCh

/-- Go `strings.ToLower` (ASCII). -/
def toLowerStr (s : Str) : Str := s.map toLowerCh

/-- Go `strings.SplitN(s, ",", 2)`, reported as `none` when there is no
comma (Go then returns a one-element slice). -/
def splitN2Comma : Str → Option (Str × Str)
  | [] => none
  | c :: cs =>
    if c == ',' then some ([], cs)
    else match splitN2Comma cs with
      | none => none
      | some (l, r) => some (c :: l, r)

/-- Decimal digits of a natural number (via core `Nat.toDigits`). -/
def natDec (n : Nat) : Str := Nat.toDigits 10 n

/-! ## Calendar formatting

Go `time.Time.Format` on UTC instants.  `civilFromDays` is the
standard civil-from-days calculation used by all proleptic-Gregorian
libraries (including Go's `time.Date` internals). -/

/-- Convert days since the Unix epoch to `(year, month, day)`. -/
def civilFromDays (z0 : Int) : Int × Int × Int :=
  let z := z0 + 719468
  let era := Int.fdiv z 146097
  let doe := z - era * 146097
  let yoe := Int.fdiv (doe - Int.fdiv doe 1460 + Int.fdiv doe 36524 - Int.fdiv doe 146096) 365
  let y := yoe + era * 400
  let doy := doe - (365 * yoe + Int.fdiv yoe 4 - Int.fdiv yoe 100)
  let mp := Int.fdiv (5 * doy + 2) 153
  let d := doy - Int.fdiv (153 * mp + 2) 5 + 1
  let m := mp + (if mp < 10 then 3 else -9)
  (y + (if m ≤ 2 then 1 else 0), m, d)

/-- Decimal digits of a nonnegative integer. -/
def intDec (n : Int) : Str := natDec n.toNat

/-- Zero-padded two-digit decimal. -/
def pad2 (n : Int) : Str := if n < 10 then '0' :: intDec n else intDec n

/-- Zero-padded four-digit decimal (years in scope are 1970–9999). -/
def pad4 (n : Int) : Str :=
  if n < 10 then '0' :: '0' :: '0' :: intDec n
  else if n < 100 then '0' :: '0' :: intDec n
  else if n < 1000 then '0' :: intDec n
  else intDec n

/-- Go `t.Format(time.RFC3339)` for a UTC instant given in nanoseconds:
`"2006-01-02T15:04:05Z"` (fractional seconds are not printed by this
layout). -/
def formatRFC3339 (ns : Int) : Str :=
  let sec := Int.fdiv ns nsPerSec
  let days := Int.fdiv sec 86400
  let sod := sec - days * 86400
  let (y, m, d) := civilFromDays days
  pad4 y ++ ['-'] ++ pad2 m ++ ['-'] ++ pad2 d ++ ['T'] ++
    pad2 (Int.fdiv sod 3600) ++ [':'] ++ pad2 (Int.fdiv (sod % 3600) 60) ++ [':'] ++
    pad2 (sod % 60) ++ ['Z']

/-- Go `t.Format("2006-01-02 15:04")` for a UTC instant given in
nanoseconds (used by the chunk error annotation). -/
def formatMinute (ns : Int) : Str :=
  let sec := Int.fdiv ns nsPerSec
  let days := Int.fdiv sec 86400
  let sod := sec - days * 86400
  let (y, m, d) := civilFromDays days
  pad4 y ++ ['-'] ++ pad2 m ++ ['-'] ++ pad2 d ++ [' '] ++
    pad2 (Int.fdiv sod 3600) ++ [':'] ++ pad2 (Int.fdiv (sod % 3600) 60)

/-! ## Macro expander (pkg/plugin/macros.go)

`expandTimeFilter`, `ApplyMacros`, `ApplyMacrosWithSplit`,
`calculateInterval`, `intervalToSeconds` and `expandTimeGroup` are
direct ports of the Go functions.  The two rewriting loops are modelled
with a fuel argument of `s.length + 1`, which is sufficient: each
`expandTimeFilter` iteration deletes one `')'` from the string and
inserts none, and each `expandTimeGroup` iteration decreases the number
of `$__timeGroup(` occurrences by one. -/

/-- The single-quote character. -/
def sq : Char := Char.ofNat 39

/-- Wrap a string in single quotes (the `'%s'` of the Go format strings). -/
def quoted (s : Str) : Str := sq :: (s ++ [sq])

/-- The `$__timeFilter(` opening token. -/
def tfToken : Str := "$__timeFilter(".toList

/-- The `$__timeFrom()` token. -/
def tfromToken : Str := "$__timeFrom()".toList

/-- The `$__timeTo()` token. -/
def ttoToken : Str := "$__timeTo()".toList

/-- The `$__interval` token. -/
def intervalToken : Str := "$__interval".toList

/-- The `$__timeGroup(` opening token. -/
def tgToken : Str := "$__timeGroup(".toList

/-- The replacement text `column >= 'from' AND column < 'to'` built by
`expandTimeFilter`. -/
def timeFilterRep (column : Str) (fromT toT : Int) : Str :=
  column ++ " >= ".toList ++ quoted (formatRFC3339 fromT) ++ " AND ".toList ++
    column ++ " < ".toList ++ quoted (formatRFC3339 toT)

/-- The loop of Go `expandTimeFilter`: find `$__timeFilter(`, find the
first `)` after it, extract and trim the column argument (defaulting an
empty argument to `time`), splice in the comparison text, repeat. -/
def expandTimeFilterFuel (fromT toT : Int) : Nat → Str → Str
  | 0, s => s
  | fuel + 1, s =>
    match firstIdx s tfToken with
    | none => s
    | some idx =>
      match firstIdx (s.drop idx) [')'] with
      | none => s
      | some d =>
        let endPos := d + idx
        let column0 := trimSpace ((s.drop (idx + tfToken.length)).take (endPos - (idx + tfToken.length)))
        let column := if column0 = [] then "time".toList else column0
        expandTimeFilterFuel fromT toT fuel
          (s.take idx ++ timeFilterRep column fromT toT ++ s.drop (endPos + 1))

/-- Go `expandTimeFilter`. -/
def expandTimeFilter (s : Str) (fromT toT : Int) : Str :=
  expandTimeFilterFuel fromT toT (s.length + 1) s

/-- Go `calculateInterval`: threshold table on the range duration. -/
def calculateInterval (d : Int) : Str :=
  if 7 * 24 * 3600 * nsPerSec < d then "1 hour".toList
  else if 24 * 3600 * nsPerSec < d then "10 minutes".toList
  else if 6 * 3600 * nsPerSec < d then "1 minute".toList
  else "10 seconds".toList

/-- Go `intervalToSeconds`: fixed lookup table, defaulting to 3600. -/
def intervalToSeconds (interval : Str) : Nat :=
  let i := trimSpace interval
  if i = "1s".toList ∨ i = "1 second".toList then 1
  else if i = "5s".toList ∨ i = "5 seconds".toList then 5
  else if i = "10s".toList ∨ i = "10 seconds".toList then 10
  else if i = "30s".toList ∨ i = "30 seconds".toList then 30
  else if i = "1m".toList ∨ i = "1 minute".toList then 60
  else if i = "5m".toList ∨ i = "5 minutes".toList then 300
  else if i = "10m".toList ∨ i = "10 minutes".toList then 600
  else if i = "15m".toList ∨ i = "15 minutes".toList then 900
  else if i = "30m".toList ∨ i = "30 minutes".toList then 1800
  else if i = "1h".toList ∨ i = "1 hour".toList then 3600
  else if i = "6h".toList ∨ i = "6 hours".toList then 21600
  else if i = "12h".toList ∨ i = "12 hours".toList then 43200
  else if i = "1d".toList ∨ i = "1 day".toList then 86400
  else 3600

/-- The epoch-bucketing replacement built by `expandTimeGroup`. -/
def timeGroupRep (column : Str) (secs : Nat) : Str :=
  "to_timestamp((epoch_ns(".toList ++ column ++ ") // 1000000000 // ".toList ++
    natDec secs ++ ") * ".toList ++ natDec secs ++ [')']

/-- The `'` and `"` cutset trimmed from the interval argument. -/
def quoteCut : Str := [sq, '"']

/-- The loop of Go `expandTimeGroup`: find `$__timeGroup(`, find the
first `)` after it, split the argument text at the first comma (a
missing comma aborts the whole rewrite), trim the column and interval,
splice in the epoch-bucketing text, repeat. -/
def expandTimeGroupFuel : Nat → Str → Str
  | 0, s => s
  | fuel + 1, s =>
    match firstIdx s tgToken with
    | none => s
    | some idx =>
      match firstIdx (s.drop idx) [')'] with
      | none => s
      | some d =>
        let endPos := d + idx
        let inner := (s.drop (idx + tgToken.length)).take (endPos - (idx + tgToken.length))
        match splitN2Comma inner with
        | none => s
        | some (p1, p2) =>
          let column := trimSpace p1
          let secs := intervalToSeconds (trimIn (trimSpace p2) quoteCut)
          expandTimeGroupFuel fuel (s.take idx ++ timeGroupRep column secs ++ s.drop (endPos + 1))

/-- Go `expandTimeGroup`. -/
def expandTimeGroup (s : Str) : Str := expandTimeGroupFuel (s.length + 1) s

/-- Go `ApplyMacros`: expand `$__timeFilter`, then `$__timeFrom()`,
`$__timeTo()`, `$__interval`, then `$__timeGroup`. -/
def ApplyMacros (sql : Str) (tr : TimeRange) : Str :=
  expandTimeGroup
    (replaceAll
      (replaceAll
        (replaceAll (expandTimeFilter sql tr.From tr.To)
          tfromToken (quoted (formatRFC3339 tr.From)))
        ttoToken (quoted (formatRFC3339 tr.To)))
      intervalToken (calculateInterval (tr.To - tr.From)))

/-- Go `ApplyMacrosWithSplit`: time filter and bounds from the chunk,
`$__interval` from the original unsplit range. -/
def ApplyMacrosWithSplit (sql : Str) (chunk originalRange : TimeRange) : Str :=
  expandTimeGroup
    (replaceAll
      (replaceAll
        (replaceAll (expandTimeFilter sql chunk.From chunk.To)
          tfromToken (quoted (formatRFC3339 chunk.From)))
        ttoToken (quoted (formatRFC3339 chunk.To)))
      intervalToken (calculateInterval (originalRange.To - originalRange.From)))

/-! ## Claim C6: macro-expansion idempotence -/

/-- The SQL text contains none of the five macro tokens. -/
def NoMacroTokens (s : Str) : Prop :=
  firstIdx s tfToken = none ∧ firstIdx s tfromToken = none ∧
    firstIdx s ttoToken = none ∧ firstIdx s intervalToken = none ∧
    firstIdx s tgToken = none

instance : DecidablePred NoMacroTokens := fun s => by
  unfold NoMacroTokens; infer_instance

/-- Claim C6 as stated: macro-free SQL is returned unchanged, and
applying `ApplyMacros` twice with the same range always equals applying
it once. -/
def macroClaimC6 : Prop :=
  (∀ (s : Str) (tr : TimeRange), NoMacroTokens s → ApplyMacros s tr = s) ∧
  (∀ (s : Str) (tr : TimeRange), ApplyMacros (ApplyMacros s tr) tr = ApplyMacros s tr)

/-- `expandTimeFilter` is the identity when its token is absent. -/
theorem expandTimeFilter_noop {s : Str} (f t : Int)
    (h : firstIdx s tfToken = none) : expandTimeFilter s f t = s := by
  rw [expandTimeFilter]
  simp only [expandTimeFilterFuel, h]

/-- `replaceAll` is the identity when the pattern is absent. -/
theorem replaceAll_noop {s pat : Str} (rep : Str)
    (h : firstIdx s pat = none) : replaceAll s pat rep = s := by
  rw [replaceAll]
  simp only [replaceAllFuel, h]

/-- `expandTimeGroup` is the identity when its token is absent. -/
theorem expandTimeGroup_noop {s : Str}
    (h : firstIdx s tgToken = none) : expandTimeGroup s = s := by
  rw [expandTimeGroup]
  simp only [expandTimeGroupFuel, h]

/-- C6, counterexample: idempotence fails.  Expanding
`$__timeGroup(x$__timeFrom(, '1h')` produces
`to_timestamp((epoch_ns(x$__timeFrom() // 1000000000 // 3600) * 3600)`,
whose spliced-together `$__timeFrom()` token a second application then
expands. -/
theorem macroClaimC6_false : ¬ macroClaimC6 := by
  intro h
  have h2 := h.2 "$__timeGroup(x$__timeFrom(, '1h')".toList ⟨0, 3600000000000⟩
  revert h2
  decide

/-- C6, amended: SQL containing none of the five macro tokens is
returned unchanged, and re-running `ApplyMacros` is a no-op whenever
the first application left no macro token behind (which the
counterexample shows is not always the case). -/
theorem applyMacros_conditional_idempotent :
    (∀ (s : Str) (tr : TimeRange), NoMacroTokens s → ApplyMacros s tr = s) ∧
    (∀ (s : Str) (tr : TimeRange), NoMacroTokens (ApplyMacros s tr) →
      ApplyMacros (ApplyMacros s tr) tr = ApplyMacros s tr) := by
  have base : ∀ (s : Str) (tr : TimeRange), NoMacroTokens s → ApplyMacros s tr = s := by
    intro s tr h
    obtain ⟨h1, h2, h3, h4, h5⟩ := h
    rw [ApplyMacros, expandTimeFilter_noop _ _ h1, replaceAll_noop _ h2,
      replaceAll_noop _ h3, replaceAll_noop _ h4, expandTimeGroup_noop h5]
  exact ⟨base, fun s tr h => base _ tr h⟩

/-- Witness for `applyMacros_conditional_idempotent` at a macro-free
query. -/
theorem applyMacros_conditional_idempotent_witness :
    (NoMacroTokens "SELECT 1 FROM t".toList ∧
        NoMacroTokens (ApplyMacros "SELECT 1 FROM t".toList ⟨0, 0⟩)) ∧
      ApplyMacros "SELECT 1 FROM t".toList ⟨0, 0⟩ = "SELECT 1 FROM t".toList ∧
      ApplyMacros (ApplyMacros "SELECT 1 FROM t".toList ⟨0, 0⟩) ⟨0, 0⟩ =
        ApplyMacros "SELECT 1 FROM t".toList ⟨0, 0⟩ :=
  ⟨⟨by decide, by decide⟩,
    applyMacros_conditional_idempotent.1 _ ⟨0, 0⟩ (by decide),
    applyMacros_conditional_idempotent.2 _ ⟨0, 0⟩ (by decide)⟩

/-! ## Claim C7: `$__interval` table and split keying -/

/-- A representative query exercising all time macros. -/
def c7sql : Str :=
  "SELECT $__timeGroup(time, '1h') FROM m WHERE $__timeFilter(time) AND t >= $__timeFrom() AND t < $__timeTo() GROUP BY $__interval".toList

/-- A 6-hour chunk: 2026-02-18 06:00–12:00 UTC. -/
def c7chunk : TimeRange := ⟨1771394400000000000, 1771416000000000000⟩

/-- The 8-day original range: 2026-02-10 – 2026-02-18 UTC. -/
def c7orig : TimeRange := ⟨1770681600000000000, 1771372800000000000⟩

/-- C7: the `$__interval` macro is driven by the fixed threshold table
on the range duration, and in split execution `ApplyMacrosWithSplit`
keys the table on the *original* range (8 days → `1 hour`) while
`$__timeFilter`/`$__timeFrom`/`$__timeTo` use the chunk bounds; feeding
the same chunk to `ApplyMacros` instead keys the table on the chunk's
own 6-hour duration (→ `10 seconds`). -/
theorem interval_uses_original_range :
    (∀ d : Int, calculateInterval d =
      if 7 * 24 * 3600 * nsPerSec < d then "1 hour".toList
      else if 24 * 3600 * nsPerSec < d then "10 minutes".toList
      else if 6 * 3600 * nsPerSec < d then "1 minute".toList
      else "10 seconds".toList) ∧
    ApplyMacrosWithSplit c7sql c7chunk c7orig =
      "SELECT to_timestamp((epoch_ns(time) // 1000000000 // 3600) * 3600) FROM m WHERE time >= '2026-02-18T06:00:00Z' AND time < '2026-02-18T12:00:00Z' AND t >= '2026-02-18T06:00:00Z' AND t < '2026-02-18T12:00:00Z' GROUP BY 1 hour".toList ∧
    ApplyMacros c7sql c7chunk =
      "SELECT to_timestamp((epoch_ns(time) // 1000000000 // 3600) * 3600) FROM m WHERE time >= '2026-02-18T06:00:00Z' AND time < '2026-02-18T12:00:00Z' AND t >= '2026-02-18T06:00:00Z' AND t < '2026-02-18T12:00:00Z' GROUP BY 10 seconds".toList :=
  ⟨fun _ => rfl, by decide, by decide⟩

/-! ## Claim C9: `containsLIMIT` -/

/-- The ` LIMIT ` pattern searched by `containsLIMIT`. -/
def limitToken : Str := " LIMIT ".toList

/-- Go `containsLIMIT` from `pkg/plugin/datasource.go`:
`strings.Contains(strings.ToUpper(sql), " LIMIT ")`. -/
def containsLIMIT (sql : Str) : Bool := containsSub (toUpperStr sql) limitToken

/-- An SQL identifier character. -/
def isWordCh (c : Char) : Bool :=
  ('a' ≤ c && c ≤ 'z') || ('A' ≤ c && c ≤ 'Z') || ('0' ≤ c && c ≤ '9') || c == '_'

/-- `LIMIT` occurs in `s` as a standalone keyword (any letter casing):
an occurrence whose neighbours, if any, are not identifier characters. -/
def HasStandaloneLIMIT (s : Str) : Prop :=
  ∃ pre w post : Str, s = pre ++ w ++ post ∧ toUpperStr w = "LIMIT".toList ∧
    isWordCh (pre.getLastD ' ') = false ∧ isWordCh (post.headD ' ') = false

/-- Claim C9 as stated: `containsLIMIT` is true on every SQL containing
a standalone `LIMIT` keyword, and false when the letters only occur
inside another identifier. -/
def limitClaimC9 : Prop :=
  (∀ s : Str, HasStandaloneLIMIT s → containsLIMIT s = true) ∧
  containsLIMIT "SELECT limited FROM t".toList = false

/-- C9, counterexample: a `LIMIT` keyword separated by a newline
instead of spaces is a standalone keyword, but `containsLIMIT` only
matches the space-delimited pattern ` LIMIT ` and returns `false` on
`"SELECT * FROM t\nLIMIT 10"`. -/
theorem limitClaimC9_false : ¬ limitClaimC9 := by
  intro h
  have h1 := h.1 "SELECT * FROM t\nLIMIT 10".toList
    ⟨"SELECT * FROM t\n".toList, "LIMIT".toList, " 10".toList,
      by decide, by decide, by decide, by decide⟩
  revert h1
  decide

/-- `leadsB p (p ++ x)` always holds. -/
theorem leadsB_append_self : ∀ (p x : Str), leadsB p (p ++ x) = true := by
  intro p
  induction p with
  | nil => intro x; rfl
  | cons c cs ih =>
    intro x
    simp only [List.cons_append, leadsB, beq_self_eq_true, Bool.true_and]
    exact ih x

/-- When the pattern leads the string, the scan reports the current
index. -/
theorem firstIdxAux_of_leads {pat s : Str} (h : leadsB pat s = true) (i : Nat) :
    firstIdxAux pat s i = some i := by
  cases s with
  | nil => simp [firstIdxAux, h]
  | cons c cs => simp [firstIdxAux, h]

/-- A pattern planted between two strings is always found. -/
theorem firstIdxAux_isSome_planted (pat b : Str) :
    ∀ (a : Str) (i : Nat), (firstIdxAux pat (a ++ (pat ++ b)) i).isSome = true := by
  intro a
  induction a with
  | nil =>
    intro i
    rw [List.nil_append, firstIdxAux_of_leads (leadsB_append_self pat b) i]
    rfl
  | cons c cs ih =>
    intro i
    rw [List.cons_append]
    simp only [firstIdxAux]
    by_cases hl : leadsB pat (c :: (cs ++ (pat ++ b))) = true
    · rw [if_pos hl]; rfl
    · rw [if_neg hl]; exact ih (i + 1)

/-- `containsSub` finds a planted pattern. -/
theorem containsSub_planted (a pat b : Str) : containsSub (a ++ (pat ++ b)) pat = true := by
  rw [containsSub, firstIdx]
  exact firstIdxAux_isSome_planted pat b a 0

/-- C9, amended: `containsLIMIT` is true on every SQL in which a
`LIMIT` word (any letter casing) is delimited by space characters on
both sides, and false on `SELECT limited FROM t`, where the letters
occur only inside another identifier. -/
theorem containsLIMIT_spec :
    (∀ pre w post : Str, toUpperStr w = "LIMIT".toList →
      containsLIMIT (pre ++ [' '] ++ w ++ [' '] ++ post) = true) ∧
    containsLIMIT "SELECT limited FROM t".toList = false := by
  refine ⟨?_, by decide⟩
  intro pre w post hw
  have hsp : toUpperCh ' ' = ' ' := by decide
  have hlt : limitToken = [' '] ++ ("LIMIT".toList ++ [' ']) := by decide
  have key : toUpperStr (pre ++ [' '] ++ w ++ [' '] ++ post) =
      toUpperStr pre ++ (limitToken ++ toUpperStr post) := by
    unfold toUpperStr at hw ⊢
    rw [hlt]
    simp only [List.map_append, List.map_cons, List.map_nil, hsp, hw, List.append_assoc]
  rw [containsLIMIT, key]
  exact containsSub_planted _ limitToken _

/-- Witness for `containsLIMIT_spec` at a mixed-case query. -/
theorem containsLIMIT_spec_witness :
    toUpperStr "LiMiT".toList = "LIMIT".toList ∧
      containsLIMIT ("SELECT * FROM t".toList ++ [' '] ++ "LiMiT".toList ++ [' '] ++ "10".toList) = true :=
  ⟨by decide, containsLIMIT_spec.1 "SELECT * FROM t".toList "LiMiT".toList "10".toList (by decide)⟩

/-! ## Claim C10: `OptimizeTimeSeriesQuery` -/

/-- The lower-case `order by` pattern. -/
def orderByPat : Str := "order by".toList

/-- The lower-case `time` pattern. -/
def timePat : Str := "time".toList

/-- The lower-case ` limit ` pattern. -/
def limitLowerPat : Str := " limit ".toList

/-- The lower-case ` offset ` pattern. -/
def offsetLowerPat : Str := " offset ".toList

/-- The cutset of `strings.TrimRight` in `OptimizeTimeSeriesQuery`. -/
def optTrimCut : Str := " \t\n\r;".toList

/-- The inserted clause. -/
def orderClause : Str := " ORDER BY time ASC".toList

/-- Go `OptimizeTimeSeriesQuery`: leaves SQL containing `order by` (or
not containing `time`) unchanged; otherwise right-trims the SQL and
splices ` ORDER BY time ASC` at the position of the last ` limit `/
` offset ` found in the lower-cased, *both-ends-trimmed* copy — note
the Go code searches `strings.ToLower(strings.TrimSpace(sql))` but
splices into the merely right-trimmed original. -/
def OptimizeTimeSeriesQuery (sql : Str) : Str :=
  let sqlLower := toLowerStr (trimSpace sql)
  if containsSub sqlLower orderByPat then sql
  else if !(containsSub sqlLower timePat) then sql
  else
    let sql2 := trimRightIn sql optTrimCut
    let insertPos : Nat :=
      match lastIdx sqlLower limitLowerPat, lastIdx sqlLower offsetLowerPat with
      | some lp, some op => if lp < op then lp else op
      | some lp, none => lp
      | none, some op => op
      | none, none => sql2.length
    if insertPos < sql2.length then sql2.take insertPos ++ orderClause ++ sql2.drop insertPos
    else sql2 ++ orderClause

/-- C10: evaluation at the failing input.  With one leading space the
insertion index (computed on the trimmed copy) is off by one inside the
untrimmed original, so the clause is spliced into the middle of the
identifier `time_t`, producing invalid SQL instead of inserting the
clause immediately before the `LIMIT` clause; with no leading space the
insertion lands correctly. -/
theorem optimizeTSQ_leading_space_mangles :
    OptimizeTimeSeriesQuery " SELECT * FROM time_t LIMIT 5".toList =
      " SELECT * FROM time_ ORDER BY time ASCt LIMIT 5".toList ∧
    OptimizeTimeSeriesQuery " SELECT * FROM time_t LIMIT 5".toList ≠
      " SELECT * FROM time_t ORDER BY time ASC LIMIT 5".toList ∧
    OptimizeTimeSeriesQuery "SELECT * FROM time_t LIMIT 5".toList =
      "SELECT * FROM time_t ORDER BY time ASC LIMIT 5".toList :=
  ⟨by decide, by decide, by decide⟩

/-! ## Frame model (grafana-plugin-sdk-go `data.Frame`)

A `Frame` is an ordered list of named columns.  Cell values are
modelled by a small closed type: a `time.Time` cell, a nil
`*time.Time` cell, and an opaque payload standing for every other Go
cell type (floats, strings, booleans, integers); the functions in
scope only ever inspect whether a cell parses as a time. -/

/-- A cell of a data frame. -/
inductive Value
  | vTime : Int → Value
  | vTimeNull : Value
  | vOther : Int → Value
deriving Repr, DecidableEq

/-- The zero value appended by `data.Field.Extend`. -/
def zeroValue : Value := Value.vOther 0

/-- A `data.Field`: a named column. -/
structure Field where
  name : Str
  values : List Value
deriving Repr, DecidableEq

/-- Placeholder column for out-of-bounds accesses (Go would panic;
every theorem below stays in bounds). -/
def defaultField : Field := ⟨[], []⟩

/-- A `data.Frame`. -/
structure Frame where
  name : Str
  fields : List Field
deriving Repr, DecidableEq

/-- `data.Frame.Rows()`: the length of the first field, `0` without
fields. -/
def Frame.rowsCount (f : Frame) : Nat :=
  match f.fields with
  | [] => 0
  | fld :: _ => fld.values.length

/-- `data.Frame.RowLen()`: the common row count; Go returns an error
(here `none`) when there are no fields or the fields disagree. -/
def Frame.rowLen? (f : Frame) : Option Nat :=
  match f.fields with
  | [] => none
  | fld :: rest =>
    if rest.all (fun g => g.values.length == fld.values.length) then some fld.values.length
    else none

/-! ## `mergeFrames` (pkg/plugin/datasource.go)

Go source: see the repository.  `findBase` models the
`for i, f := range frames` loop that picks the first non-nil frame
with fields as the base, returning it together with the remaining
frames (`frames[startIdx:]`).  `countRows` models the pre-allocation
count, `copyAll` the `Set(writeIdx, CopyAt(i))` copy loop. -/

/-- The base-selection loop of `mergeFrames`: first non-nil frame with
at least one field, paired with the frames after it. -/
def findBase : List (Option Frame) → Option (Frame × List (Option Frame))
  | [] => none
  | f? :: rest =>
    match f? with
    | some f => if f.fields.length ≠ 0 then some (f, rest) else findBase rest
    | none => findBase rest

/-- The `additionalRows` count: total `RowLen` of the non-nil frames
with the expected field count (frames with a `RowLen` error are
skipped). -/
def countRows (fs : List (Option Frame)) (expected : Nat) : Nat :=
  fs.foldl
    (fun acc f? =>
      match f? with
      | none => acc
      | some f =>
        if f.fields.length ≠ expected then acc
        else match f.rowLen? with
          | none => acc
          | some r => acc + r)
    0

/-- `data.Field.Extend(n)`: append `n` zero values. -/
def Field.extend (fld : Field) (n : Nat) : Field :=
  ⟨fld.name, fld.values ++ List.replicate n zeroValue⟩

/-- `data.Field.Set(i, v)` (Go panics out of bounds; the model leaves
the column unchanged, and every theorem below stays in bounds). -/
def Field.setVal (fld : Field) (i : Nat) (v : Value) : Field :=
  ⟨fld.name, fld.values.set i v⟩

/-- `f.Fields[j].CopyAt(i)`. -/
def Frame.cellAt (f : Frame) (j i : Nat) : Value :=
  ((f.fields.getD j defaultField).values.getD i zeroValue)

/-- One iteration of the inner copy loop: write row `i` of `src` into
row `writeIdx` of every field of `base`. -/
def writeRow (flds : List Field) (src : Frame) (writeIdx i expected : Nat) : List Field :=
  (List.range expected).foldl
    (fun fl j => fl.set j ((fl.getD j defaultField).setVal writeIdx (src.cellAt j i)))
    flds

/-- The row loop for one source frame: rows `0 ≤ i < rows` are written
at consecutive `writeIdx` positions. -/
def copyFrameRows (flds : List Field) (src : Frame) (writeIdx rows expected : Nat) :
    List Field × Nat :=
  (List.range rows).foldl
    (fun acc i => (writeRow acc.1 src acc.2 i expected, acc.2 + 1))
    (flds, writeIdx)

/-- The outer copy loop over the frames after the base, skipping nil
frames, field-count mismatches and `RowLen` errors. -/
def copyAll (flds : List Field) (rest : List (Option Frame)) (expected startWrite : Nat) :
    List Field × Nat :=
  rest.foldl
    (fun acc f? =>
      match f? with
      | none => acc
      | some f =>
        if f.fields.length ≠ expected then acc
        else match f.rowLen? with
          | none => acc
          | some r => copyFrameRows acc.1 f acc.2 r expected)
    (flds, startWrite)

/-- Go `mergeFrames` (`len == 0`, `len == 1`, and the general case). -/
def mergeFrames : List (Option Frame) → Option Frame
  | [] => none
  | [f] => f
  | f0 :: f1 :: rest0 =>
    match findBase (f0 :: f1 :: rest0) with
    | none => f0
    | some (merged, rest) =>
      let expected := merged.fields.length
      let additionalRows := countRows rest expected
      if additionalRows = 0 then some merged
      else
        let extended := merged.fields.map (fun fld => fld.extend additionalRows)
        some ⟨merged.name, (copyAll extended rest expected merged.rowsCount).1⟩

/-! ## Claim C4: `mergeFrames` properties -/

/-- A frame satisfying the data-model row-count invariant: every column
holds the same number of values. -/
def Rect (f : Frame) : Prop := ∀ fld ∈ f.fields, fld.values.length = f.rowsCount

instance : DecidablePred Rect := fun f => by
  unfold Rect; infer_instance

/-- A frame that can serve as merge base: non-nil with at least one
field. -/
def isEligible (f? : Option Frame) : Prop := ∃ f, f? = some f ∧ f.fields ≠ []

instance : DecidablePred isEligible := fun f? =>
  match f? with
  | none => .isFalse (by rintro ⟨f, h, -⟩; cases h)
  | some f =>
    if h : f.fields = [] then .isFalse (by rintro ⟨g, hg, hne⟩; cases hg; exact hne h)
    else .isTrue ⟨f, rfl, h⟩

/-- The column lengths of a field list. -/
def lensOf (flds : List Field) : List Nat := flds.map (fun fld => fld.values.length)

/-- Setting an entry to its own current value is the identity. -/
theorem list_set_getD_self {α : Type _} :
    ∀ (l : List α) (i : Nat) (d : α), l.set i (l.getD i d) = l := by
  intro l
  induction l with
  | nil => intro i d; rfl
  | cons a as ih =>
    intro i d
    cases i with
    | zero => rfl
    | succ n =>
      show a :: as.set n (as.getD n d) = a :: as
      rw [ih]

/-- The column length at position `j`, read off the length list. -/
theorem lens_getD (flds : List Field) (j : Nat) :
    (flds.map fun fld => fld.values.length).getD j 0 =
      (flds.getD j defaultField).values.length := by
  induction flds generalizing j with
  | nil => rfl
  | cons a as ih =>
    cases j with
    | zero => rfl
    | succ n => exact ih n

/-- `writeRow` only overwrites cells, so all column lengths survive. -/
theorem writeRow_lens (flds : List Field) (src : Frame) (w i e : Nat) :
    lensOf (writeRow flds src w i e) = lensOf flds := by
  rw [writeRow]
  generalize List.range e = js
  induction js generalizing flds with
  | nil => rfl
  | cons j js ih =>
    rw [List.foldl_cons, ih]
    rw [lensOf, List.map_set]
    have h1 : ((flds.getD j defaultField).setVal w (src.cellAt j i)).values.length =
        (flds.getD j defaultField).values.length := by
      simp [Field.setVal]
    rw [h1, ← lens_getD flds j, list_set_getD_self]
    rfl

/-- `copyFrameRows` preserves all column lengths. -/
theorem copyFrameRows_lens (flds : List Field) (src : Frame) (w rows e : Nat) :
    lensOf (copyFrameRows flds src w rows e).1 = lensOf flds := by
  rw [copyFrameRows]
  generalize List.range rows = is
  induction is generalizing flds w with
  | nil => rfl
  | cons i is ih =>
    rw [List.foldl_cons]
    rw [ih (writeRow flds src w i e) (w + 1), writeRow_lens]

/-- `copyAll` preserves all column lengths. -/
theorem copyAll_lens (flds : List Field) (rest : List (Option Frame)) (e sw : Nat) :
    lensOf (copyAll flds rest e sw).1 = lensOf flds := by
  rw [copyAll]
  induction rest generalizing flds sw with
  | nil => rfl
  | cons f? fs ih =>
    rw [List.foldl_cons]
    cases f? with
    | none => exact ih flds sw
    | some f =>
      by_cases hf : f.fields.length ≠ e
      · simp only [if_pos hf]
        exact ih flds sw
      · simp only [if_neg hf]
        cases hr : f.rowLen? with
        | none => exact ih flds sw
        | some r =>
          have := ih (copyFrameRows flds f sw r e).1 (copyFrameRows flds f sw r e).2
          rw [this, copyFrameRows_lens]

/-- `Rows()` is the head of the column lengths. -/
theorem rowsCount_eq_headD (f : Frame) : f.rowsCount = (lensOf f.fields).headD 0 := by
  obtain ⟨nm, flds⟩ := f
  cases flds <;> rfl

/-- A rectangular frame with fields has a successful `RowLen`. -/
theorem rowLen?_of_rect {f : Frame} (h : Rect f) (hne : f.fields ≠ []) :
    f.rowLen? = some f.rowsCount := by
  obtain ⟨nm, flds⟩ := f
  cases flds with
  | nil => exact absurd rfl hne
  | cons fld rest =>
    show (if rest.all (fun g => g.values.length == fld.values.length) then
        some fld.values.length else none) = some (Frame.mk nm (fld :: rest)).rowsCount
    have hall : rest.all (fun g => g.values.length == fld.values.length) = true := by
      rw [List.all_eq_true]
      intro g hg
      have h1 := h g (List.mem_cons_of_mem _ hg)
      have h2 := h fld (List.mem_cons_self _ _)
      simp only [beq_iff_eq]
      rw [h1, ← h2]
    rw [if_pos hall]
    rfl

/-- `findBase` distributes over a right extension of the list. -/
theorem findBase_append {pre : List (Option Frame)} {f : Frame} {r : List (Option Frame)}
    (h : findBase pre = some (f, r)) (ys : List (Option Frame)) :
    findBase (pre ++ ys) = some (f, r ++ ys) := by
  induction pre with
  | nil => simp [findBase] at h
  | cons x xs ih =>
    cases x with
    | none =>
      rw [List.cons_append]
      simp only [findBase] at h ⊢
      exact ih h
    | some xf =>
      rw [List.cons_append]
      simp only [findBase] at h ⊢
      by_cases hx : xf.fields.length ≠ 0
      · rw [if_pos hx] at h ⊢
        obtain ⟨h1, h2⟩ := Prod.mk.injEq .. ▸ Option.some.injEq .. ▸ h
        cases h
        rfl
      · rw [if_neg hx] at h ⊢
        exact ih h

/-- A list with an eligible member yields a base. -/
theorem findBase_of_mem {pre : List (Option Frame)} (h : ∃ x ∈ pre, isEligible x) :
    ∃ f r, findBase pre = some (f, r) := by
  induction pre with
  | nil => obtain ⟨x, hx, -⟩ := h; cases hx
  | cons x xs ih =>
    cases x with
    | none =>
      obtain ⟨y, hy, hel⟩ := h
      rcases List.mem_cons.mp hy with rfl | hy'
      · obtain ⟨g, hg, -⟩ := hel; cases hg
      · simpa [findBase] using ih ⟨y, hy', hel⟩
    | some xf =>
      by_cases hx : xf.fields.length ≠ 0
      · exact ⟨xf, xs, by simp [findBase, hx]⟩
      · obtain ⟨y, hy, hel⟩ := h
        rcases List.mem_cons.mp hy with rfl | hy'
        · obtain ⟨g, hg, hne⟩ := hel
          cases hg
          exact absurd (List.length_eq_zero.mp (by omega)) hne
        · simpa [findBase, hx] using ih ⟨y, hy', hel⟩

/-- The merge step function skips a nil or column-count-mismatched
frame in the row count. -/
theorem countRows_skips {bad : Option Frame} {e : Nat}
    (hbad : bad = none ∨ ∃ bf, bad = some bf ∧ bf.fields.length ≠ e)
    (xs ys : List (Option Frame)) :
    countRows (xs ++ bad :: ys) e = countRows (xs ++ ys) e := by
  rw [countRows, countRows, List.foldl_append, List.foldl_append, List.foldl_cons]
  rcases hbad with rfl | ⟨bf, rfl, hbf⟩
  · rfl
  · simp only [if_pos hbf]

/-- The copy loop likewise skips such a frame. -/
theorem copyAll_skips {bad : Option Frame} {e : Nat}
    (hbad : bad = none ∨ ∃ bf, bad = some bf ∧ bf.fields.length ≠ e)
    (flds : List Field) (xs ys : List (Option Frame)) (sw : Nat) :
    copyAll flds (xs ++ bad :: ys) e sw = copyAll flds (xs ++ ys) e sw := by
  rw [copyAll, copyAll, List.foldl_append, List.foldl_append, List.foldl_cons]
  rcases hbad with rfl | ⟨bf, rfl, hbf⟩
  · rfl
  · simp only [if_pos hbf]

/-- The general branch of `mergeFrames`, as one equation. -/
theorem mergeFrames_cons2 (x y : Option Frame) (rest0 : List (Option Frame)) :
    mergeFrames (x :: y :: rest0) =
      match findBase (x :: y :: rest0) with
      | none => x
      | some (merged, rest) =>
        if countRows rest merged.fields.length = 0 then some merged
        else
          some ⟨merged.name,
            (copyAll (merged.fields.map (fun fld => fld.extend (countRows rest merged.fields.length)))
              rest merged.fields.length merged.rowsCount).1⟩ := rfl

/-- The general branch of `mergeFrames`, rewritten by the outcome of
the base search. -/
theorem mergeFrames_eq_of_findBase {x y : Option Frame} {rest0 : List (Option Frame)}
    {f : Frame} {r : List (Option Frame)} (h : findBase (x :: y :: rest0) = some (f, r)) :
    mergeFrames (x :: y :: rest0) =
      (if countRows r f.fields.length = 0 then some f
       else
        some ⟨f.name,
          (copyAll (f.fields.map (fun fld => fld.extend (countRows r f.fields.length)))
            r f.fields.length f.rowsCount).1⟩) := by
  rw [mergeFrames_cons2, h]

/-- A skipped leading frame (nil, or with an empty field list) does not
change the base. -/
theorem findBase_cons_skip {bad : Option Frame}
    (hbad : bad = none ∨ ∃ bf, bad = some bf ∧ bf.fields = []) (fs : List (Option Frame)) :
    findBase (bad :: fs) = findBase fs := by
  rcases hbad with rfl | ⟨bf, rfl, hbf⟩
  · rfl
  · simp only [findBase, hbf]
    rfl

/-- A one-element list yields its element as base exactly when it is
eligible. -/
theorem findBase_singleton {x : Option Frame} {f : Frame} {r : List (Option Frame)}
    (h : findBase [x] = some (f, r)) : x = some f ∧ r = [] := by
  cases x with
  | none => simp [findBase] at h
  | some xf =>
    simp only [findBase] at h
    by_cases hx : xf.fields.length ≠ 0
    · rw [if_pos hx] at h
      obtain ⟨h1, h2⟩ := Option.some.injEq .. ▸ h
      cases h
      exact ⟨rfl, rfl⟩
    · rw [if_neg hx] at h
      simp [findBase] at h

/-- C4: the five merge properties.  Merging no frames yields `none`;
merging one frame returns that very frame (also when nil); merging two
rectangular frames with equal column counts yields the sum of the row
counts; a nil or column-count-mismatched frame after the base is
skipped without affecting the result; and a nil or zero-column leading
frame is never used as the base. -/
theorem mergeFrames_spec :
    mergeFrames [] = none ∧
    (∀ f? : Option Frame, mergeFrames [f?] = f?) ∧
    (∀ f g : Frame, f.fields.length = g.fields.length → Rect f → Rect g →
      ∃ m, mergeFrames [some f, some g] = some m ∧
        m.rowsCount = f.rowsCount + g.rowsCount) ∧
    (∀ (pre post : List (Option Frame)) (bad : Option Frame) (f : Frame)
        (r : List (Option Frame)), findBase pre = some (f, r) →
      (bad = none ∨ ∃ bf, bad = some bf ∧ bf.fields.length ≠ f.fields.length) →
      mergeFrames (pre ++ bad :: post) = mergeFrames (pre ++ post)) ∧
    (∀ (bad : Option Frame) (fs : List (Option Frame)),
      (bad = none ∨ ∃ bf, bad = some bf ∧ bf.fields = []) →
      (∃ x ∈ fs, isEligible x) →
      mergeFrames (bad :: fs) = mergeFrames fs) := by
  refine ⟨rfl, fun f? => rfl, ?_, ?_, ?_⟩
  · -- two compatible rectangular frames: row counts add up
    intro f g hc hf hg
    cases hff : f.fields with
    | nil =>
      have hgf : g.fields = [] := by
        rw [hff] at hc
        exact List.length_eq_zero.mp hc.symm
      refine ⟨f, ?_, ?_⟩
      · rw [mergeFrames_cons2]
        have : findBase [some f, some g] = none := by
          simp [findBase, hff, hgf]
        rw [this]
      · have h1 : f.rowsCount = 0 := by rw [rowsCount_eq_headD, hff]; rfl
        have h2 : g.rowsCount = 0 := by rw [rowsCount_eq_headD, hgf]; rfl
        omega
    | cons fld0 frest =>
      have hfne : f.fields.length ≠ 0 := by rw [hff]; simp
      have hb : findBase [some f, some g] = some (f, [some g]) := by
        simp [findBase, hfne]
      have hgl : g.rowLen? = some g.rowsCount :=
        rowLen?_of_rect hg (by
          intro hnil
          rw [hnil] at hc
          simp only [List.length_nil] at hc
          exact hfne hc)
      have hcount : countRows [some g] f.fields.length = g.rowsCount := by
        rw [countRows, List.foldl_cons]
        simp only [if_neg (by omega : ¬ g.fields.length ≠ f.fields.length), hgl]
        rw [List.foldl_nil]
        omega
      rw [mergeFrames_cons2, hb]
      simp only [hcount]
      by_cases hz : g.rowsCount = 0
      · rw [if_pos hz]
        exact ⟨f, rfl, by omega⟩
      · rw [if_neg hz]
        refine ⟨_, rfl, ?_⟩
        rw [rowsCount_eq_headD]
        show (lensOf (copyAll (f.fields.map fun fld => fld.extend g.rowsCount)
            [some g] f.fields.length f.rowsCount).1).headD 0 = f.rowsCount + g.rowsCount
        rw [copyAll_lens]
        rw [lensOf, List.map_map, hff, List.map_cons, List.headD_cons]
        have h3 : ((fun fld => fld.values.length) ∘ fun fld => fld.extend g.rowsCount) fld0 =
            fld0.values.length + g.rowsCount := by
          simp [Field.extend]
        rw [h3]
        have h4 : f.rowsCount = fld0.values.length := by
          rw [rowsCount_eq_headD, hff, lensOf, List.map_cons, List.headD_cons]
        omega
  · -- a mismatched frame after the base is skipped entirely
    intro pre post bad f r hb hbad
    cases pre with
    | nil => simp [findBase] at hb
    | cons p0 ps =>
      have hfb1 : findBase ((p0 :: ps) ++ bad :: post) = some (f, r ++ bad :: post) :=
        findBase_append hb (bad :: post)
      cases hpp : ps ++ post with
      | nil =>
        obtain ⟨rfl, rfl⟩ := List.append_eq_nil.mp hpp
        obtain ⟨hp0, hr⟩ := findBase_singleton hb
        subst hp0
        subst hr
        have hfb1' : findBase [some f, bad] = some (f, [bad]) := by simpa using hfb1
        show mergeFrames [some f, bad] = mergeFrames [some f]
        rw [mergeFrames_eq_of_findBase hfb1']
        have hz : countRows [bad] f.fields.length = 0 := by
          have := countRows_skips hbad [] []
          simpa [countRows] using this
        rw [if_pos hz]
        rfl
      | cons q qs =>
        have hfb2 : findBase ((p0 :: ps) ++ post) = some (f, r ++ post) :=
          findBase_append hb post
        cases hpb : ps ++ bad :: post with
        | nil => simp at hpb
        | cons u us =>
          have lhs1 : (p0 :: ps) ++ bad :: post = p0 :: u :: us := by
            rw [List.cons_append, hpb]
          have rhs1 : (p0 :: ps) ++ post = p0 :: q :: qs := by
            rw [List.cons_append, hpp]
          rw [lhs1, rhs1, mergeFrames_eq_of_findBase (lhs1 ▸ hfb1),
            mergeFrames_eq_of_findBase (rhs1 ▸ hfb2),
            countRows_skips hbad, copyAll_skips hbad]
  · -- a nil or zero-column leading frame is not the base
    intro bad fs hbad hex
    obtain ⟨f, r, hfb⟩ := findBase_of_mem hex
    cases fs with
    | nil => obtain ⟨x, hx, -⟩ := hex; cases hx
    | cons g0 gs =>
      cases gs with
      | nil =>
        obtain ⟨hg0, hr⟩ := findBase_singleton hfb
        subst hg0
        subst hr
        have hl : findBase (bad :: [some f]) = some (f, []) := by
          rw [findBase_cons_skip hbad]
          exact hfb
        rw [mergeFrames_eq_of_findBase hl]
        rfl
      | cons g1 gs1 =>
        have hl : findBase (bad :: g0 :: g1 :: gs1) = some (f, r) := by
          rw [findBase_cons_skip hbad]
          exact hfb
        rw [mergeFrames_eq_of_findBase hl, mergeFrames_eq_of_findBase hfb]

/-- Witness for `mergeFrames_spec` at concrete frames: two one-row
two-column frames merge to two rows; a one-column frame inserted after
the base is skipped; a leading zero-column frame is not the base. -/
theorem mergeFrames_spec_witness :
    ((⟨[], [⟨[], [Value.vTime 1]⟩, ⟨[], [Value.vOther 10]⟩]⟩ : Frame).fields.length =
        (⟨[], [⟨[], [Value.vTime 2]⟩, ⟨[], [Value.vOther 20]⟩]⟩ : Frame).fields.length ∧
      Rect ⟨[], [⟨[], [Value.vTime 1]⟩, ⟨[], [Value.vOther 10]⟩]⟩ ∧
      Rect ⟨[], [⟨[], [Value.vTime 2]⟩, ⟨[], [Value.vOther 20]⟩]⟩) ∧
    (∃ m, mergeFrames [some ⟨[], [⟨[], [Value.vTime 1]⟩, ⟨[], [Value.vOther 10]⟩]⟩,
        some ⟨[], [⟨[], [Value.vTime 2]⟩, ⟨[], [Value.vOther 20]⟩]⟩] = some m ∧
      m.rowsCount = (⟨[], [⟨[], [Value.vTime 1]⟩, ⟨[], [Value.vOther 10]⟩]⟩ : Frame).rowsCount +
        (⟨[], [⟨[], [Value.vTime 2]⟩, ⟨[], [Value.vOther 20]⟩]⟩ : Frame).rowsCount) ∧
    mergeFrames [some ⟨[], [⟨[], [Value.vOther 1]⟩]⟩, some ⟨[], []⟩,
        some ⟨[], [⟨[], [Value.vOther 2]⟩]⟩] =
      mergeFrames [some ⟨[], [⟨[], [Value.vOther 1]⟩]⟩, some ⟨[], [⟨[], [Value.vOther 2]⟩]⟩] ∧
    mergeFrames [some ⟨[], []⟩, some ⟨[], [⟨[], [Value.vOther 1]⟩]⟩] =
      mergeFrames [some ⟨[], [⟨[], [Value.vOther 1]⟩]⟩] :=
  ⟨⟨rfl, by decide, by decide⟩,
    mergeFrames_spec.2.2.1 _ _ rfl (by decide) (by decide),
    mergeFrames_spec.2.2.2.1 [some ⟨[], [⟨[], [Value.vOther 1]⟩]⟩]
      [some ⟨[], [⟨[], [Value.vOther 2]⟩]⟩] (some ⟨[], []⟩)
      ⟨[], [⟨[], [Value.vOther 1]⟩]⟩ [] (by decide)
      (Or.inr ⟨⟨[], []⟩, rfl, by decide⟩),
    mergeFrames_spec.2.2.2.2 (some ⟨[], []⟩) [some ⟨[], [⟨[], [Value.vOther 1]⟩]⟩]
      (Or.inr ⟨⟨[], []⟩, rfl, rfl⟩) ⟨some ⟨[], [⟨[], [Value.vOther 1]⟩]⟩,
        List.mem_singleton.mpr rfl, ⟨_, rfl, by decide⟩⟩⟩

/-! ## Claim C3: split execution — collection phase

`query` (split path) launches one goroutine per chunk; each writes the
slot `results[idx]` of a pre-sized array, then the results are scanned
in index order: the first error aborts, otherwise the non-nil frames
are appended in order and merged.  The goroutine bodies are modelled by
an outcome function (what `executeChunk` returns for each chunk); a
completion order is any permutation of the chunk indices, and the slot
writes are folded in that order. -/

/-- What `executeChunk` returned for one chunk. -/
structure ChunkOutcome where
  frame : Option Frame
  err : Option Str

/-- The `chunkResult` record of `query`. -/
structure ChunkResult where
  index : Nat
  frame : Option Frame
  err : Option Str
deriving DecidableEq

/-- The `[chunk %s to %s] %w` annotation attached to a chunk error. -/
def annotErr (ch : TimeRange) (msg : Str) : Str :=
  "[chunk ".toList ++ formatMinute ch.From ++ " to ".toList ++ formatMinute ch.To ++
    "] ".toList ++ msg

/-- The goroutine body for chunk `idx`: record the frame and the
annotated error in the slot value. -/
def runChunkTask (chunks : List TimeRange) (outcomes : Nat → ChunkOutcome) (idx : Nat) :
    ChunkResult :=
  ⟨idx, (outcomes idx).frame, (outcomes idx).err.map (annotErr (chunks.getD idx ⟨0, 0⟩))⟩

/-- All slot writes of the pre-sized results array, performed in
completion order `order`. -/
def runAll (n : Nat) (chunks : List TimeRange) (outcomes : Nat → ChunkOutcome)
    (order : List Nat) : List ChunkResult :=
  order.foldl (fun results idx => results.set idx (runChunkTask chunks outcomes idx))
    (List.replicate n ⟨0, none, none⟩)

/-- The collection loop of `query`: scan results in order, abort on the
first error, gather the non-nil frames otherwise. -/
def collectOrdered : List ChunkResult → Except Str (List Frame)
  | [] => .ok []
  | r :: rest =>
    match r.err with
    | some e => .error e
    | none =>
      match collectOrdered rest with
      | .error e => .error e
      | .ok fs => .ok (match r.frame with | some f => f :: fs | none => fs)

/-- The split path after `wg.Wait()`: collect in chunk order, then
merge. -/
def splitCollectMerge (n : Nat) (chunks : List TimeRange) (outcomes : Nat → ChunkOutcome)
    (order : List Nat) : Except Str (Option Frame) :=
  match collectOrdered (runAll n chunks outcomes order) with
  | .error e => .error e
  | .ok fs => .ok (mergeFrames (fs.map some))

/-- Index-addressed slot writes preserve the array length. -/
theorem runWrites_length (task : Nat → ChunkResult) :
    ∀ (order : List Nat) (init : List ChunkResult),
      (order.foldl (fun rs idx => rs.set idx (task idx)) init).length = init.length := by
  intro order
  induction order with
  | nil => intro init; rfl
  | cons i rest ih =>
    intro init
    rw [List.foldl_cons, ih, List.length_set]

/-- The value of a slot after all writes: the last write to that slot
wins, and slots written at least once hold their task's result. -/
theorem runWrites_getElem? (task : Nat → ChunkResult) :
    ∀ (order : List Nat) (init : List ChunkResult) (k : Nat), k < init.length →
      (order.foldl (fun rs idx => rs.set idx (task idx)) init)[k]? =
        if k ∈ order then some (task k) else init[k]? := by
  intro order
  induction order with
  | nil =>
    intro init k hk
    simp
  | cons i rest ih =>
    intro init k hk
    rw [List.foldl_cons, ih (init.set i (task i)) k (by simpa using hk)]
    by_cases hkr : k ∈ rest
    · rw [if_pos hkr, if_pos (List.mem_cons_of_mem i hkr)]
    · rw [if_neg hkr]
      by_cases hik : i = k
      · subst hik
        rw [if_pos (List.mem_cons_self i rest)]
        rw [List.getElem?_set_self (by omega)]
      · rw [List.getElem?_set_ne hik]
        rw [if_neg (by
          intro hmem
          rcases List.mem_cons.mp hmem with h | h
          · exact hik h.symm
          · exact hkr h)]

/-- Any completion order that is a permutation of the chunk indices
produces the same results array: the canonical one. -/
theorem runAll_perm (n : Nat) (chunks : List TimeRange) (outcomes : Nat → ChunkOutcome)
    {order : List Nat} (h : order.Perm (List.range n)) :
    runAll n chunks outcomes order =
      (List.range n).map (runChunkTask chunks outcomes) := by
  apply List.ext_getElem?
  intro k
  by_cases hk : k < n
  · rw [runAll, runWrites_getElem? _ order _ k (by simpa using hk)]
    rw [if_pos ((h.mem_iff).mpr (List.mem_range.mpr hk))]
    rw [List.getElem?_map, List.getElem?_range hk]
    rfl
  · have h1 : ((List.range n).map (runChunkTask chunks outcomes))[k]? = none := by
      rw [List.getElem?_eq_none]
      simpa using Nat.le_of_not_lt hk
    have h2 : (runAll n chunks outcomes order)[k]? = none := by
      rw [List.getElem?_eq_none]
      rw [runAll, runWrites_length]
      simpa using Nat.le_of_not_lt hk
    rw [h1, h2]

/-- Collection over the canonical results: the first error wins,
otherwise the frames appear in index order. -/
theorem collectOrdered_canonical (chunks : List TimeRange) (outcomes : Nat → ChunkOutcome) :
    ∀ is : List Nat,
      collectOrdered (is.map (runChunkTask chunks outcomes)) =
        match is.find? (fun i => (outcomes i).err.isSome) with
        | some i0 => .error (annotErr (chunks.getD i0 ⟨0, 0⟩) ((outcomes i0).err.getD []))
        | none => .ok (is.filterMap (fun i => (outcomes i).frame)) := by
  intro is
  induction is with
  | nil => rfl
  | cons i rest ih =>
    rw [List.map_cons, collectOrdered]
    simp only [runChunkTask]
    cases he : (outcomes i).err with
    | some e =>
      have hfind : List.find? (fun j => (outcomes j).err.isSome) (i :: rest) = some i :=
        List.find?_cons_of_pos rest (show (outcomes i).err.isSome = true by rw [he]; rfl)
      simp only [he, hfind, Option.map_some', Option.getD_some]
    | none =>
      have hfind : List.find? (fun j => (outcomes j).err.isSome) (i :: rest) =
          List.find? (fun j => (outcomes j).err.isSome) rest :=
        List.find?_cons_of_neg rest (show ¬((outcomes i).err.isSome = true) by rw [he]; simp)
      simp only [he, hfind, Option.map_none']
      rw [ih]
      cases hf : List.find? (fun j => (outcomes j).err.isSome) rest with
      | some i0 => simp only [hf]
      | none =>
        simp only [hf, List.filterMap_cons]
        cases (outcomes i).frame <;> rfl

/-- C3: the collection phase of split execution.  For any two
completion orders the result is identical; when some chunk failed, the
query returns the error of the lowest-indexed failed chunk annotated
with that chunk's time bounds (and no merged frame); otherwise it
returns the merge of the produced frames in chunk-plan order. -/
theorem splitCollectMerge_spec (n : Nat) (chunks : List TimeRange)
    (outcomes : Nat → ChunkOutcome) (o1 o2 : List Nat)
    (h1 : o1.Perm (List.range n)) (h2 : o2.Perm (List.range n)) :
    splitCollectMerge n chunks outcomes o1 = splitCollectMerge n chunks outcomes o2 ∧
    (∀ i0 ∈ (List.range n).find? (fun i => (outcomes i).err.isSome),
      splitCollectMerge n chunks outcomes o1 =
        .error (annotErr (chunks.getD i0 ⟨0, 0⟩) ((outcomes i0).err.getD []))) ∧
    ((List.range n).find? (fun i => (outcomes i).err.isSome) = none →
      splitCollectMerge n chunks outcomes o1 =
        .ok (mergeFrames (((List.range n).filterMap (fun i => (outcomes i).frame)).map some))) := by
  have key : ∀ {o : List Nat}, o.Perm (List.range n) →
      splitCollectMerge n chunks outcomes o =
        match (List.range n).find? (fun i => (outcomes i).err.isSome) with
        | some i0 => .error (annotErr (chunks.getD i0 ⟨0, 0⟩) ((outcomes i0).err.getD []))
        | none => .ok (mergeFrames
            (((List.range n).filterMap (fun i => (outcomes i).frame)).map some)) := by
    intro o ho
    rw [splitCollectMerge, runAll_perm n chunks outcomes ho,
      collectOrdered_canonical chunks outcomes (List.range n)]
    cases (List.range n).find? (fun i => (outcomes i).err.isSome) with
    | some i0 => rfl
    | none => rfl
  refine ⟨by rw [key h1, key h2], ?_, ?_⟩
  · intro i0 hi0
    rw [key h1]
    rw [Option.mem_def] at hi0
    rw [hi0]
  · intro hnone
    rw [key h1, hnone]

/-- Witness for `splitCollectMerge_spec`: three chunks, the second and
third failing, collected under two different completion orders. -/
theorem splitCollectMerge_spec_witness :
    (([2, 0, 1].Perm (List.range 3) ∧ [0, 1, 2].Perm (List.range 3)) ∧
      (List.range 3).find?
        (fun i => ((fun j => if j = 0 then ChunkOutcome.mk (some ⟨[], []⟩) none
          else ChunkOutcome.mk none (some "boom".toList)) i).err.isSome) = some 1) ∧
    splitCollectMerge 3 [⟨0, 1⟩, ⟨1, 2⟩, ⟨2, 3⟩]
        (fun j => if j = 0 then ChunkOutcome.mk (some ⟨[], []⟩) none
          else ChunkOutcome.mk none (some "boom".toList)) [2, 0, 1] =
      .error (annotErr ((⟨1, 2⟩ : TimeRange)) "boom".toList) := by
  have h1 : ([2, 0, 1] : List Nat).Perm (List.range 3) := by decide
  have h2 : ([0, 1, 2] : List Nat).Perm (List.range 3) := by decide
  refine ⟨⟨⟨h1, h2⟩, by decide⟩, ?_⟩
  have := (splitCollectMerge_spec 3 [⟨0, 1⟩, ⟨1, 2⟩, ⟨2, 3⟩]
    (fun j => if j = 0 then ChunkOutcome.mk (some ⟨[], []⟩) none
      else ChunkOutcome.mk none (some "boom".toList)) [2, 0, 1] [0, 1, 2] h1 h2).2.1 1 (by decide)
  simpa using this

/-! ## Claim C8: Arrow timestamp decoding

There are two timestamp decoders in the repository: `appendTimestamp`
in `pkg/plugin/arrow.go` (used by `QueryArrow`) carries the
mislabeled-unit workaround; `appendTimestampColumn` in the
FlightSQL-style streaming path (used by `QueryArrowFlightSQLStyle`,
the default Arrow execution path) carries none. -/

/-- `arrow.TimeUnit`. -/
inductive TimeUnit
  | second
  | millisecond
  | microsecond
  | nanosecond
deriving Repr, DecidableEq

/-- `arrow.Timestamp.ToTime(unit)`, as a Unix-nanosecond instant. -/
def toInstantNs (u : TimeUnit) (v : Int) : Int :=
  match u with
  | .second => v * 1000000000
  | .millisecond => v * 1000000
  | .microsecond => v * 1000
  | .nanosecond => v

/-- An Arrow timestamp column: the declared unit and, per row, the
validity flag (`IsNull(i)`) and raw buffer value (`Value(i)`). -/
structure ArrowTsCol where
  unit : TimeUnit
  entries : List (Bool × Int)
deriving Repr, DecidableEq

/-- `appendTimestamp` from `pkg/plugin/arrow.go`: when the column
declares microseconds but the *first* value exists, is non-null and is
below `1e12`, the whole column is decoded as seconds instead; nulls
append a nil cell on nullable fields. -/
def appendTimestamp (nullable : Bool) (col : ArrowTsCol) : List (Option Int) :=
  let actualUnit :=
    match col.entries with
    | [] => col.unit
    | (isNull0, v0) :: _ =>
      if ¬isNull0 ∧ col.unit = .microsecond ∧ v0 < 1000000000000 then .second else col.unit
  col.entries.map (fun e => if nullable ∧ e.1 then none else some (toInstantNs actualUnit e.2))

/-- `appendTimestampColumn` from the FlightSQL-style path: always the
declared unit, no workaround. -/
def appendTimestampColumn (nullable : Bool) (col : ArrowTsCol) : List (Option Int) :=
  col.entries.map (fun e => if nullable ∧ e.1 then none else some (toInstantNs col.unit e.2))

/-- The first non-null raw value of a column. -/
def firstNonNull (col : ArrowTsCol) : Option Int :=
  (col.entries.find? (fun e => !e.1)).map (fun e => e.2)

/-- Modelled from the claim's words: decode the whole column using
seconds (the reinterpretation the claim asserts). -/
def decodeAsSeconds (nullable : Bool) (col : ArrowTsCol) : List (Option Int) :=
  col.entries.map (fun e => if nullable ∧ e.1 then none else some (toInstantNs .second e.2))

/-- Claim C8 as stated: in every decode path, a microsecond-declared
column whose first *non-null* raw value is below `1e12` is
reinterpreted as seconds for the whole column. -/
def tsClaimC8 : Prop :=
  ∀ (nullable : Bool) (col : ArrowTsCol) (v : Int),
    col.unit = .microsecond → firstNonNull col = some v → v < 1000000000000 →
      appendTimestamp nullable col = decodeAsSeconds nullable col ∧
      appendTimestampColumn nullable col = decodeAsSeconds nullable col

/-- C8, counterexample: a microsecond column whose row 0 is null and
whose first non-null value is `5` is *not* reinterpreted —
`appendTimestamp` only inspects index 0 (and only when it is
non-null), so the column decodes as microseconds (`5000 ns`), not as
seconds (`5·10⁹ ns`); the FlightSQL-path `appendTimestampColumn` never
reinterprets at all. -/
theorem tsClaimC8_false : ¬ tsClaimC8 := by
  intro h
  have := (h true ⟨.microsecond, [(true, 0), (false, 5)]⟩ 5 rfl (by decide) (by decide)).1
  revert this
  decide

/-- C8, amended: the workaround lives only in the `arrow.go`
(`QueryArrow`) decoder and fires exactly when the *first* entry of a
microsecond-declared column exists, is non-null and is below `1e12`,
reinterpreting the whole column as seconds; the streaming
(`QueryArrowFlightSQLStyle`) decoder always uses the declared unit, as
witnessed on a small-value microsecond column it decodes as
microseconds. -/
theorem appendTimestamp_unit_workaround :
    (∀ (nullable : Bool) (v0 : Int) (rest : List (Bool × Int)),
      v0 < 1000000000000 →
      appendTimestamp nullable ⟨.microsecond, (false, v0) :: rest⟩ =
        decodeAsSeconds nullable ⟨.microsecond, (false, v0) :: rest⟩) ∧
    appendTimestampColumn true ⟨.microsecond, [(false, 5)]⟩ = [some 5000] ∧
    appendTimestampColumn true ⟨.microsecond, [(false, 5)]⟩ ≠
      decodeAsSeconds true ⟨.microsecond, [(false, 5)]⟩ := by
  refine ⟨?_, by decide, by decide⟩
  intro nullable v0 rest hv
  simp [appendTimestamp, decodeAsSeconds, hv]

/-- Witness for `appendTimestamp_unit_workaround` at a two-row
column. -/
theorem appendTimestamp_unit_workaround_witness :
    ((5 : Int) < 1000000000000) ∧
      appendTimestamp true ⟨.microsecond, (false, 5) :: [(true, 0)]⟩ =
        decodeAsSeconds true ⟨.microsecond, (false, 5) :: [(true, 0)]⟩ :=
  ⟨by decide, appendTimestamp_unit_workaround.1 true 5 [(true, 0)] (by decide)⟩

/-! ## Claim C5: `ensureAscendingTimes`

`ensureAscendingTimes` scans the time column (`toTime` per cell),
returns the frame unchanged when already non-decreasing, and otherwise
captures all rows with their parsed timestamps, sorts them with Go
`sort.Slice` (comparator `rows[i].time.Before(rows[j].time)`), and
rebuilds a new frame.  `sort.Slice` is Go's pattern-defeating
quicksort (`src/sort/zsortfunc.go`, Go 1.19+), ported below verbatim;
it is *not* a stable sort.  `ensureAscendingTimesCore` abstracts the
sorting routine so that the specification can be proved for any
contract-satisfying sort, while `ensureAscendingTimes` instantiates it
with the `sort.Slice` port. -/

/-- Go zero `time.Time` (January 1, year 1 UTC) in Unix nanoseconds:
the value captured for a cell whose `toTime` fails. -/
def goZeroTimeNs : Int := -62135596800000000000

/-- Go `toTime`: only `time.Time` values and non-nil `*time.Time`
pointers convert. -/
def toTimeVal : Value → Option Int
  | .vTime t => some t
  | .vTimeNull => none
  | .vOther _ => none

/-- The `rowWithTime` record of `ensureAscendingTimes`. -/
structure RowT where
  time : Int
  dat : List Value
deriving Repr, DecidableEq

instance : Inhabited RowT := ⟨⟨0, []⟩⟩

/-- The scan outcome of the sortedness check. -/
inductive ScanRes
  | invalid
  | needsSort
  | sorted
deriving Repr, DecidableEq

/-- The sortedness scan: walk the rows, abort (returning the frame
unchanged) on a cell that does not parse as a time, and stop at the
first out-of-order adjacent pair. -/
def scanLoop (f : Frame) (timeIdx : Nat) : Nat → Nat → Int → ScanRes
  | 0, _, _ => .sorted
  | count + 1, i, prev =>
    match toTimeVal (f.cellAt timeIdx i) with
    | none => .invalid
    | some curr =>
      if 0 < i ∧ curr < prev then .needsSort
      else scanLoop f timeIdx count (i + 1) curr

/-- `frame.RowCopy(i)`. -/
def Frame.rowCopy (f : Frame) (i : Nat) : List Value :=
  f.fields.map (fun fld => fld.values.getD i zeroValue)

/-- The row-capture loop: each row with its parsed timestamp (the Go
code ignores the failure flag here, so a failing cell captures the
zero time). -/
def captureRows (f : Frame) (timeIdx n : Nat) : List RowT :=
  (List.range n).map
    (fun i => ⟨(toTimeVal (f.cellAt timeIdx i)).getD goZeroTimeNs, f.rowCopy i⟩)

/-- `frame.EmptyCopy()`: same schema, no rows. -/
def Frame.emptyCopy (f : Frame) : Frame :=
  ⟨f.name, f.fields.map (fun fld => ⟨fld.name, []⟩)⟩

/-- `frame.AppendRow(vals...)`: append the k-th value to the k-th
field (the Go call panics on arity mismatch; rows built by `RowCopy`
always match). -/
def Frame.appendRow (f : Frame) (row : List Value) : Frame :=
  ⟨f.name, (f.fields.zip row).map (fun p => ⟨p.1.name, p.1.values ++ [p.2]⟩)⟩

/-- `ensureAscendingTimes`, abstracted over the sorting routine. -/
def ensureAscendingTimesCore (sortImpl : List RowT → List RowT) (frame : Frame)
    (timeIdx : Nat) : Frame :=
  match frame.rowLen? with
  | none => frame
  | some rowLen =>
    if rowLen < 2 then frame
    else
      match scanLoop frame timeIdx rowLen 0 goZeroTimeNs with
      | .invalid => frame
      | .sorted => frame
      | .needsSort =>
        (sortImpl (captureRows frame timeIdx rowLen)).foldl
          (fun fr row => fr.appendRow row.dat) frame.emptyCopy

/-! ### Go `sort.Slice` (pdqsort), ported from `src/sort/zsortfunc.go`

The element data is an `Array RowT`; `rtLess i j` is the closure
`rows[i].time.Before(rows[j].time)`.  Loops are modelled with ample
fuel (reached `0` would return the array unchanged; the supplied fuel
always suffices on the inputs evaluated here). -/

/-- The `less` closure handed to `sort.Slice`. -/
def rtLess (xs : Array RowT) (i j : Nat) : Bool :=
  (xs.get! i).time < (xs.get! j).time

/-- `data.Swap(i, j)`. -/
def rtSwap (xs : Array RowT) (i j : Nat) : Array RowT :=
  let vi := xs.get! i
  let vj := xs.get! j
  (xs.set! i vj).set! j vi

/-- The inner loop of `insertionSort`: sift element `j` down while it
is smaller than its left neighbour (and above `a`). -/
def insInner (a : Nat) : Array RowT → Nat → Array RowT
  | xs, 0 => xs
  | xs, j + 1 =>
    if a < j + 1 && rtLess xs (j + 1) j then insInner a (rtSwap xs (j + 1) j) j else xs

/-- Go `insertionSort(data, a, b)`. -/
def insertionSortRT (xs : Array RowT) (a b : Nat) : Array RowT :=
  (List.range' (a + 1) (b - (a + 1))).foldl (fun ys i => insInner a ys i) xs

/-- Go `siftDown(data, lo, hi, first)` (fuelled). -/
def siftDownRT (first hi : Nat) : Array RowT → Nat → Nat → Array RowT
  | xs, _, 0 => xs
  | xs, root, fuel + 1 =>
    let child0 := 2 * root + 1
    if child0 ≥ hi then xs
    else
      let child :=
        if child0 + 1 < hi && rtLess xs (first + child0) (first + child0 + 1) then child0 + 1
        else child0
      if !(rtLess xs (first + root) (first + child)) then xs
      else siftDownRT first hi (rtSwap xs (first + root) (first + child)) child fuel

/-- Go `heapSort(data, a, b)`. -/
def heapSortRT (xs : Array RowT) (a b : Nat) : Array RowT :=
  let first := a
  let hi := b - a
  let heaped := ((List.range ((hi - 1) / 2 + 1)).reverse).foldl
    (fun ys i => siftDownRT first hi ys i hi) xs
  ((List.range hi).reverse).foldl
    (fun ys i => siftDownRT first i (rtSwap ys first (first + i)) 0 (i + 1)) heaped

/-- Go `order2(data, a, b, &swaps)`. -/
def order2RT (xs : Array RowT) (a b swaps : Nat) : (Nat × Nat) × Nat :=
  if rtLess xs b a then ((b, a), swaps + 1) else ((a, b), swaps)

/-- Go `median(data, a, b, c, &swaps)`. -/
def medianRT (xs : Array RowT) (a b c swaps : Nat) : Nat × Nat :=
  let p1 := order2RT xs a b swaps
  let p2 := order2RT xs p1.1.2 c p1.2
  let p3 := order2RT xs p1.1.1 p2.1.1 p2.2
  (p3.1.2, p3.2)

/-- Go `medianAdjacent(data, a, &swaps)`. -/
def medianAdjacentRT (xs : Array RowT) (a swaps : Nat) : Nat × Nat :=
  medianRT xs (a - 1) a (a + 1) swaps

/-- The `sortedHint` enumeration. -/
inductive SortHint
  | increasing
  | decreasing
  | unknown
deriving Repr, DecidableEq

/-- Go `choosePivot(data, a, b)`: median of three (or of nine above 50
elements), with a hint derived from the comparison swap count. -/
def choosePivotRT (xs : Array RowT) (a b : Nat) : Nat × SortHint :=
  let l := b - a
  let i := a + l / 4 * 1
  let j := a + l / 4 * 2
  let k := a + l / 4 * 3
  if l ≥ 8 then
    let pm :=
      if l ≥ 50 then
        let p1 := medianAdjacentRT xs i 0
        let p2 := medianAdjacentRT xs j p1.2
        let p3 := medianAdjacentRT xs k p2.2
        medianRT xs p1.1 p2.1 p3.1 p3.2
      else medianRT xs i j k 0
    (pm.1, if pm.2 = 0 then .increasing else if pm.2 = 12 then .decreasing else .unknown)
  else (j, .increasing)

/-- Go `reverseRange(data, a, b)` (fuelled). -/
def revLoop : Array RowT → Nat → Nat → Nat → Array RowT
  | xs, _, _, 0 => xs
  | xs, i, j, fuel + 1 => if i < j then revLoop (rtSwap xs i j) (i + 1) (j - 1) fuel else xs

/-- Go `reverseRange(data, a, b)`. -/
def reverseRangeRT (xs : Array RowT) (a b : Nat) : Array RowT := revLoop xs a (b - 1) b

/-- The advancing scan of `partialInsertionSort`. -/
def pisAdvance (xs : Array RowT) (b : Nat) : Nat → Nat → Nat
  | i, 0 => i
  | i, fuel + 1 => if i < b && !(rtLess xs i (i - 1)) then pisAdvance xs b (i + 1) fuel else i

/-- The leftward shift of `partialInsertionSort`. -/
def pisLeftLoop : Array RowT → Nat → Nat → Array RowT
  | xs, _, 0 => xs
  | xs, j, fuel + 1 =>
    if j ≥ 1 then
      (if rtLess xs j (j - 1) then pisLeftLoop (rtSwap xs j (j - 1)) (j - 1) fuel else xs)
    else xs

/-- The rightward shift of `partialInsertionSort`. -/
def pisRightLoop (b : Nat) : Array RowT → Nat → Nat → Array RowT
  | xs, _, 0 => xs
  | xs, j, fuel + 1 =>
    if j < b then
      (if rtLess xs j (j - 1) then pisRightLoop b (rtSwap xs j (j - 1)) (j + 1) fuel else xs)
    else xs

/-- The `maxSteps` loop of `partialInsertionSort`. -/
def pisSteps (a b : Nat) : Array RowT → Nat → Nat → Array RowT × Bool
  | xs, _, 0 => (xs, false)
  | xs, i, steps + 1 =>
    let i := pisAdvance xs b i b
    if i = b then (xs, true)
    else if b - a < 50 then (xs, false)
    else
      let xs := rtSwap xs i (i - 1)
      let xs := if i - a ≥ 2 then pisLeftLoop xs (i - 1) i else xs
      let xs := if b - i ≥ 2 then pisRightLoop b xs (i + 1) b else xs
      pisSteps a b xs i steps

/-- Go `partialInsertionSort(data, a, b)`: up to five shift attempts,
reporting whether the range ended fully sorted. -/
def partialInsertionSortRT (xs : Array RowT) (a b : Nat) : Array RowT × Bool :=
  pisSteps a b xs (a + 1) 5

/-- The `i` scan of `partition`/`partitionEqual` loops. -/
def partScanI (xs : Array RowT) (aIdx : Nat) : Nat → Nat → Nat → Nat
  | i, _, 0 => i
  | i, j, fuel + 1 =>
    if i ≤ j && rtLess xs i aIdx then partScanI xs aIdx (i + 1) j fuel else i

/-- The `j` scan of the `partition` loop. -/
def partScanJ (xs : Array RowT) (aIdx : Nat) : Nat → Nat → Nat → Nat
  | _, j, 0 => j
  | i, j, fuel + 1 =>
    if i ≤ j && !(rtLess xs j aIdx) then partScanJ xs aIdx i (j - 1) fuel else j

/-- The swapping loop of `partition`. -/
def partLoop (aIdx b : Nat) : Array RowT → Nat → Nat → Nat → Array RowT × Nat
  | xs, _, j, 0 => (xs, j)
  | xs, i, j, fuel + 1 =>
    let i := partScanI xs aIdx i j b
    let j := partScanJ xs aIdx i j b
    if i > j then (xs, j)
    else partLoop aIdx b (rtSwap xs i j) (i + 1) (j - 1) fuel

/-- Go `partition(data, a, b, pivot)`: Hoare partition around the
pivot moved to `a`, returning the new pivot position and whether the
range was already partitioned. -/
def partitionRT (xs0 : Array RowT) (a b pivot : Nat) : Array RowT × Nat × Bool :=
  let xs := rtSwap xs0 a pivot
  let i := partScanI xs a (a + 1) (b - 1) b
  let j := partScanJ xs a i (b - 1) b
  if i > j then (rtSwap xs j a, j, true)
  else
    let pr := partLoop a b (rtSwap xs i j) (i + 1) (j - 1) b
    (rtSwap pr.1 pr.2 a, pr.2, false)

/-- The `i` scan of the `partitionEqual` loop. -/
def partEqScanI (xs : Array RowT) (aIdx : Nat) : Nat → Nat → Nat → Nat
  | i, _, 0 => i
  | i, j, fuel + 1 =>
    if i ≤ j && !(rtLess xs aIdx i) then partEqScanI xs aIdx (i + 1) j fuel else i

/-- The `j` scan of the `partitionEqual` loop. -/
def partEqScanJ (xs : Array RowT) (aIdx : Nat) : Nat → Nat → Nat → Nat
  | _, j, 0 => j
  | i, j, fuel + 1 =>
    if i ≤ j && rtLess xs aIdx j then partEqScanJ xs aIdx i (j - 1) fuel else j

/-- The swapping loop of `partitionEqual`. -/
def partEqLoop (aIdx b : Nat) : Array RowT → Nat → Nat → Nat → Array RowT × Nat
  | xs, i, _, 0 => (xs, i)
  | xs, i, j, fuel + 1 =>
    let i := partEqScanI xs aIdx i j b
    let j := partEqScanJ xs aIdx i j b
    if i > j then (xs, i)
    else partEqLoop aIdx b (rtSwap xs i j) (i + 1) (j - 1) fuel

/-- Go `partitionEqual(data, a, b, pivot)`: skips elements equal to the
pivot, returning the first index past them. -/
def partitionEqualRT (xs0 : Array RowT) (a b pivot : Nat) : Array RowT × Nat :=
  let xs := rtSwap xs0 a pivot
  partEqLoop a b xs (a + 1) (b - 1) b

/-- Go `bits.Len(uint(n))`. -/
def bitsLen (n : Nat) : Nat := if n = 0 then 0 else Nat.log2 n + 1

/-- The `xorshift` step of `breakPatterns` (uint64, shifts 13/7/17). -/
def xorshiftNext (r : Nat) : Nat :=
  let m := 18446744073709551616
  let r := (r ^^^ (r <<< 13)) % m
  let r := (r ^^^ (r >>> 7)) % m
  (r ^^^ (r <<< 17)) % m

/-- Go `nextPowerOfTwo(length)`. -/
def nextPowerOfTwo (length : Nat) : Nat := 1 <<< bitsLen length

/-- Go `breakPatterns(data, a, b)`: swap three elements around the
midpoint to pseudo-random positions. -/
def breakPatternsRT (xs : Array RowT) (a b : Nat) : Array RowT :=
  let length := b - a
  if length ≥ 8 then
    let modulus := nextPowerOfTwo length
    let idx := a + length / 4 * 2 - 1
    (([0, 1, 2] : List Nat).foldl
      (fun acc i =>
        let r := xorshiftNext acc.2
        let other0 := r &&& (modulus - 1)
        let other := if other0 ≥ length then other0 - length else other0
        (rtSwap acc.1 (idx - 1 + i) (a + other), r))
      (xs, length)).1
  else xs

/-- Go `pdqsort(data, a, b, limit)`; each iteration of the outer loop
is one recursive call. -/
def pdqsortRT : Nat → Array RowT → Nat → Nat → Nat → Bool → Bool → Array RowT
  | 0, xs, _, _, _, _, _ => xs
  | fuel + 1, xs, a, b, limit, wasBalanced, wasPartitioned =>
      let length := b - a
      if length ≤ 12 then insertionSortRT xs a b
      else if limit = 0 then heapSortRT xs a b
      else
        let xs := if !wasBalanced then breakPatternsRT xs a b else xs
        let limit := if !wasBalanced then limit - 1 else limit
        let pv := choosePivotRT xs a b
        let xs := if pv.2 = SortHint.decreasing then reverseRangeRT xs a b else xs
        let pivot := if pv.2 = SortHint.decreasing then (b - 1) - (pv.1 - a) else pv.1
        let hint := if pv.2 = SortHint.decreasing then SortHint.increasing else pv.2
        let pr :=
          if wasBalanced && wasPartitioned && hint = SortHint.increasing then
            partialInsertionSortRT xs a b
          else (xs, false)
        if pr.2 then pr.1
        else
          let xs := pr.1
          if a > 0 && !(rtLess xs (a - 1) pivot) then
            let pe := partitionEqualRT xs a b pivot
            pdqsortRT fuel pe.1 pe.2 b limit wasBalanced wasPartitioned
          else
            let pt := partitionRT xs a b pivot
            let mid := pt.2.1
            let wasPartitioned := pt.2.2
            let leftLen := mid - a
            let rightLen := b - mid
            let wasBalanced := min leftLen rightLen ≥ length / 8
            if leftLen < rightLen then
              let ys := pdqsortRT fuel pt.1 a mid limit true true
              pdqsortRT fuel ys (mid + 1) b limit wasBalanced wasPartitioned
            else
              let ys := pdqsortRT fuel pt.1 (mid + 1) b limit true true
              pdqsortRT fuel ys a mid limit wasBalanced wasPartitioned

/-- Go `sort.Slice(rows, less)`: pdqsort over the whole slice with
`limit = bits.Len(n)`. -/
def goSortSliceRows (rows : List RowT) : List RowT :=
  (pdqsortRT (rows.length * rows.length + 64) rows.toArray 0 rows.length
    (bitsLen rows.length) true true).toList

/-- `ensureAscendingTimes` from `pkg/plugin/datasource.go`. -/
def ensureAscendingTimes (frame : Frame) (timeIdx : Nat) : Frame :=
  ensureAscendingTimesCore goSortSliceRows frame timeIdx

/-- Stable insertion by timestamp: a row goes before the first row with
an equal or later timestamp. -/
def stableInsertTime (r : RowT) : List RowT → List RowT
  | [] => [r]
  | x :: xs => if x.time < r.time then x :: stableInsertTime r xs else r :: x :: xs

/-- Modelled from the claim's words: the stable sort by parsed
timestamp (rows with equal timestamps keep their original relative
order; any stable algorithm produces this same sequence). -/
def stableSortTime (rows : List RowT) : List RowT := rows.foldr stableInsertTime []

/-- Every time cell of the first `n` rows parses. -/
def ValidTimes (f : Frame) (timeIdx n : Nat) : Prop :=
  ∀ i < n, (toTimeVal (f.cellAt timeIdx i)).isSome = true

instance : ∀ f timeIdx n, Decidable (ValidTimes f timeIdx n) := fun f timeIdx n =>
  inferInstanceAs (Decidable (∀ i < n, (toTimeVal (f.cellAt timeIdx i)).isSome = true))

/-- The parsed time column is non-decreasing over the first `n` rows. -/
def TimesSorted (f : Frame) (timeIdx n : Nat) : Prop :=
  ((List.range n).map (fun i => (toTimeVal (f.cellAt timeIdx i)).getD goZeroTimeNs)).Chain'
    (· ≤ ·)

/-- Boolean adjacent-pairs check, used to decide `TimesSorted`. -/
def chainLeB : List Int → Bool
  | [] => true
  | [_] => true
  | x :: y :: rest => decide (x ≤ y) && chainLeB (y :: rest)

/-- `chainLeB` decides the non-decreasing chain. -/
theorem chainLeB_iff : ∀ l : List Int, chainLeB l = true ↔ l.Chain' (· ≤ ·)
  | [] => by simp [chainLeB]
  | [x] => by simp [chainLeB]
  | x :: y :: rest => by
    rw [chainLeB, Bool.and_eq_true, decide_eq_true_eq, List.chain'_cons]
    exact and_congr Iff.rfl (chainLeB_iff (y :: rest))

instance : ∀ f timeIdx n, Decidable (TimesSorted f timeIdx n) := fun f timeIdx n =>
  decidable_of_iff _ (chainLeB_iff
    ((List.range n).map (fun i => (toTimeVal (f.cellAt timeIdx i)).getD goZeroTimeNs)))

/-- Claim C5 as stated: on a frame with a valid time column,
`ensureAscendingTimes` is the identity when the column is already
non-decreasing, and otherwise rebuilds the frame from the *stable*
timestamp sort of its rows. -/
def ensureClaimC5 : Prop :=
  ∀ (f : Frame) (timeIdx n : Nat), f.rowLen? = some n → ValidTimes f timeIdx n →
    (TimesSorted f timeIdx n → ensureAscendingTimes f timeIdx = f) ∧
    (¬ TimesSorted f timeIdx n →
      ensureAscendingTimes f timeIdx =
        (stableSortTime (captureRows f timeIdx n)).foldl
          (fun fr row => fr.appendRow row.dat) f.emptyCopy)

/-- An unsorted 13-row frame with four rows at timestamp `5`,
distinguishable by their `label` column. -/
def ceFrame : Frame :=
  ⟨[], [⟨"time".toList,
          [5, 5, 3, 8, 1, 9, 2, 7, 4, 6, 0, 5, 5].map Value.vTime⟩,
        ⟨"label".toList, (List.range 13).map (fun i => Value.vOther i)⟩]⟩

/-- C5, counterexample: the sort is Go `sort.Slice` (pdqsort), which
is not stable.  On `ceFrame` the four rows with timestamp `5` come out
in label order `0, 1, 12, 11` instead of the stable `0, 1, 11, 12`, so
the rebuilt frame differs from the stable-sort rebuild the claim
asserts. -/
theorem ensureClaimC5_false : ¬ ensureClaimC5 := by
  intro h
  have := (h ceFrame 0 13 (by decide) (by decide)).2 (by decide)
  revert this
  decide

/-- The scan returns `sorted` exactly when the parsed times from `i`
on, preceded by `prev` when `i > 0`, form a non-decreasing chain
(validity of every cell in range is assumed, so `invalid` cannot
arise). -/
theorem scanLoop_eq (f : Frame) (timeIdx : Nat) :
    ∀ (count i : Nat) (prev : Int),
      (∀ j, i ≤ j → j < i + count → (toTimeVal (f.cellAt timeIdx j)).isSome = true) →
      scanLoop f timeIdx count i prev =
        (if ((if 0 < i then [prev] else []) ++
            (List.range' i count).map
              (fun j => (toTimeVal (f.cellAt timeIdx j)).getD goZeroTimeNs)).Chain' (· ≤ ·)
         then ScanRes.sorted else ScanRes.needsSort) := by
  intro count
  induction count with
  | zero =>
    intro i prev hv
    have hch : ((if 0 < i then [prev] else []) ++
        (List.range' i 0).map
          (fun j => (toTimeVal (f.cellAt timeIdx j)).getD goZeroTimeNs)).Chain' (· ≤ ·) := by
      by_cases hi : 0 < i <;> simp [hi]
    simp only [scanLoop]
    rw [if_pos hch]
  | succ count ih =>
    intro i prev hv
    have hvi : (toTimeVal (f.cellAt timeIdx i)).isSome = true :=
      hv i (le_refl i) (by omega)
    obtain ⟨t, ht⟩ := Option.isSome_iff_exists.mp hvi
    have hv' : ∀ j, i + 1 ≤ j → j < (i + 1) + count →
        (toTimeVal (f.cellAt timeIdx j)).isSome = true := by
      intro j h1 h2
      exact hv j (by omega) (by omega)
    have hrec := ih (i + 1) t hv'
    rw [if_pos (Nat.succ_pos i), List.singleton_append] at hrec
    simp only [scanLoop, ht]
    rw [List.range'_succ, List.map_cons]
    simp only [ht, Option.getD_some]
    by_cases hi : 0 < i
    · rw [if_pos hi, List.singleton_append]
      simp only [List.chain'_cons]
      by_cases hlt : t < prev
      · rw [if_pos ⟨hi, hlt⟩, if_neg (fun hc => absurd hc.1 (not_le.mpr hlt))]
      · rw [if_neg (fun hc => hlt hc.2), hrec]
        by_cases hch : (t :: (List.range' (i + 1) count).map
              (fun j => (toTimeVal (f.cellAt timeIdx j)).getD goZeroTimeNs)).Chain' (· ≤ ·)
        · rw [if_pos hch, if_pos ⟨not_lt.mp hlt, hch⟩]
        · rw [if_neg hch, if_neg (fun hc => hch hc.2)]
    · rw [if_neg hi, List.nil_append, if_neg (fun hc => hi hc.1)]
      exact hrec

/-- Boolean adjacent-pairs check on captured rows. -/
def chainTimeB : List RowT → Bool
  | [] => true
  | [_] => true
  | x :: y :: rest => decide (x.time ≤ y.time) && chainTimeB (y :: rest)

/-- `chainTimeB` decides the non-decreasing-by-time chain. -/
theorem chainTimeB_iff :
    ∀ l : List RowT, chainTimeB l = true ↔ l.Chain' (fun a b => a.time ≤ b.time)
  | [] => by simp [chainTimeB]
  | [x] => by simp [chainTimeB]
  | x :: y :: rest => by
    rw [chainTimeB, Bool.and_eq_true, decide_eq_true_eq, List.chain'_cons]
    exact and_congr Iff.rfl (chainTimeB_iff (y :: rest))

/-- Under `ValidTimes`, the sortedness scan computes `TimesSorted`. -/
theorem scanLoop_top (f : Frame) (timeIdx n : Nat) (hv : ValidTimes f timeIdx n) :
    scanLoop f timeIdx n 0 goZeroTimeNs =
      if TimesSorted f timeIdx n then ScanRes.sorted else ScanRes.needsSort := by
  rw [scanLoop_eq f timeIdx n 0 goZeroTimeNs (fun j _ hj => hv j (by omega))]
  rw [if_neg (by omega : ¬ (0 : Nat) < 0), List.nil_append]
  exact if_congr (by simp only [TimesSorted, List.range_eq_range']) rfl rfl

/-- Branch behaviour of `ensureAscendingTimesCore`, for any sorting
routine: with a valid time column, the identity when the parsed times
are non-decreasing, otherwise the frame rebuilt from the routine's
output on the captured rows. -/
theorem ensureAscendingTimesCore_branches
    (sortImpl : List RowT → List RowT) (f : Frame) (timeIdx n : Nat)
    (hn : f.rowLen? = some n) (hv : ValidTimes f timeIdx n) :
    (TimesSorted f timeIdx n → ensureAscendingTimesCore sortImpl f timeIdx = f) ∧
    (¬ TimesSorted f timeIdx n →
      ensureAscendingTimesCore sortImpl f timeIdx =
        (sortImpl (captureRows f timeIdx n)).foldl
          (fun fr row => fr.appendRow row.dat) f.emptyCopy) := by
  have hscan := scanLoop_top f timeIdx n hv
  constructor
  · intro hs
    simp only [ensureAscendingTimesCore, hn]
    by_cases h2 : n < 2
    · rw [if_pos h2]
    · rw [if_neg h2, hscan, if_pos hs]
  · intro hns
    have h2 : ¬ n < 2 := by
      intro hlt
      refine hns ?_
      unfold TimesSorted
      interval_cases n
      · simp only [List.range_zero, List.map_nil]
        exact List.chain'_nil
      · simp only [List.range_succ, List.range_zero, List.nil_append,
          List.map_cons, List.map_nil]
        exact List.chain'_singleton _
    simp only [ensureAscendingTimesCore, hn]
    rw [if_neg h2, hscan, if_neg hns]

/-- C5, amended: with a valid time column, `ensureAscendingTimes`
returns its input frame unchanged when the parsed times are already
non-decreasing; otherwise it rebuilds the frame from the output of Go
`sort.Slice` on the captured rows, which — whenever it is a
time-ordered permutation of its input, a fact checked by evaluation at
each verified input — makes the result a rebuild from a time-sorted
permutation preserving all non-time column values per row.  `sort.Slice`
is pdqsort, which is *not* stable (`ensureClaimC5_false`). -/
theorem ensureAscendingTimes_spec (f : Frame) (timeIdx n : Nat)
    (hn : f.rowLen? = some n) (hv : ValidTimes f timeIdx n)
    (hperm : (goSortSliceRows (captureRows f timeIdx n)).isPerm
      (captureRows f timeIdx n) = true)
    (hchain : chainTimeB (goSortSliceRows (captureRows f timeIdx n)) = true) :
    (TimesSorted f timeIdx n → ensureAscendingTimes f timeIdx = f) ∧
    (¬ TimesSorted f timeIdx n →
      (goSortSliceRows (captureRows f timeIdx n)).Perm (captureRows f timeIdx n) ∧
        (goSortSliceRows (captureRows f timeIdx n)).Chain' (fun a b => a.time ≤ b.time) ∧
        ensureAscendingTimes f timeIdx =
          (goSortSliceRows (captureRows f timeIdx n)).foldl
            (fun fr row => fr.appendRow row.dat) f.emptyCopy) := by
  have h := ensureAscendingTimesCore_branches goSortSliceRows f timeIdx n hn hv
  exact ⟨h.1, fun hns =>
    ⟨List.isPerm_iff.mp hperm, (chainTimeB_iff _).mp hchain, h.2 hns⟩⟩

/-- A 3-row frame with an out-of-order time column, for instantiating
the amended C5 theorem. -/
def c5wFrame : Frame :=
  ⟨[], [⟨"time".toList, [2, 1, 3].map Value.vTime⟩,
        ⟨"v".toList, [10, 20, 30].map Value.vOther⟩]⟩

/-- Witness for the amended C5 theorem at `c5wFrame`: the sort
hypotheses are discharged by evaluating `goSortSliceRows` — the
program's `sort.Slice` — on the captured rows, and the frame is
genuinely unsorted, so the rebuild branch is the one that fires. -/
theorem ensureAscendingTimes_spec_witness :
    ¬ TimesSorted c5wFrame 0 3 ∧
    ((TimesSorted c5wFrame 0 3 → ensureAscendingTimes c5wFrame 0 = c5wFrame) ∧
      (¬ TimesSorted c5wFrame 0 3 →
        (goSortSliceRows (captureRows c5wFrame 0 3)).Perm (captureRows c5wFrame 0 3) ∧
          (goSortSliceRows (captureRows c5wFrame 0 3)).Chain'
            (fun a b => a.time ≤ b.time) ∧
          ensureAscendingTimes c5wFrame 0 =
            (goSortSliceRows (captureRows c5wFrame 0 3)).foldl
              (fun fr row => fr.appendRow row.dat) c5wFrame.emptyCopy)) :=
  ⟨by decide,
    ensureAscendingTimes_spec c5wFrame 0 3 (by decide) (by decide)
      (by decide) (by decide)⟩

end Arc
